import Mathlib


/-!
Verification of the plan-dependency engine (`mtf.plan`): XML-backed plan
parsing (`graph.py`), graph construction, ready-task query and the three
renderers.  The document layer (lxml element trees, the XSD schema file and
pydantic shape validation) is external to the parsing logic; it is embedded
as plain data: an element is a record of the attribute/child-text strings the
parser reads, and a validation run is an outcome value.
-/

namespace Mtf

/-- Status of a plan element (`node.py`: `Status`). -/
inductive Status where
  | pending
  | inProgress
  | complete
deriving DecidableEq, Repr

/-- `Status.value`: the raw string of each enum member. -/
def Status.value : Status → String
  | .pending => "pending"
  | .inProgress => "in_progress"
  | .complete => "complete"

/-- `Status(s)` in Python: the member whose value is `s`, else a
`ValueError`, modelled as `none`. -/
def statusOfString (s : String) : Option Status :=
  if s = "pending" then some .pending
  else if s = "in_progress" then some .inProgress
  else if s = "complete" then some .complete
  else none

/-- Digits of a decimal literal folded to a number; `none` when empty or a
character is not a digit. -/
def parseDigits : List Char → Option Nat
  | [] => none
  | cs =>
    cs.foldl (fun acc c =>
      acc.bind (fun n => if c.isDigit then some (n * 10 + (c.toNat - 48)) else none))
      (some 0)

/-- A whitespace character as Python's `int` strips it. -/
def isSpaceChar (c : Char) : Bool :=
  c = ' ' || c = '\t' || c = '\n' || c = '\r'

/-- Both-sided whitespace strip over a character list. -/
def trimChars (cs : List Char) : List Char :=
  ((cs.dropWhile isSpaceChar).reverse.dropWhile isSpaceChar).reverse

/-- `int(s)` in Python on the strings the parser feeds it: surrounding
whitespace stripped, an optional sign, then decimal digits; anything else
raises `ValueError`, modelled as `none`. -/
def str_to_int (s : String) : Option Int :=
  match trimChars s.data with
  | '-' :: rest => (parseDigits rest).map (fun n => -(n : Int))
  | '+' :: rest => (parseDigits rest).map (fun n => (n : Int))
  | cs => (parseDigits cs).map (fun n => (n : Int))

/-- `node.py`: `TaskNode`. -/
structure TaskNode where
  id : String
  description : String
  status : Status
  priority : Int
  depends_on : List String
deriving DecidableEq, Repr

/-- `node.py`: `StoryNode`. -/
structure StoryNode where
  id : String
  description : String
  status : Status
  priority : Int
  points : Int
  tasks : List TaskNode
deriving DecidableEq, Repr

/-- `node.py`: `EpicNode`. -/
structure EpicNode where
  id : String
  description : String
  status : Status
  priority : Int
  stories : List StoryNode
deriving DecidableEq, Repr

/-- `node.py`: `PlanNode`. -/
structure PlanNode where
  version : String
  epics : List EpicNode
deriving DecidableEq, Repr

/-- A task element as `_parse_task` reads it: the `id`/`status` attributes
(`get` with default `""`), the `description` (default `""`) and `priority`
(default `"1"`) child texts, and the texts of the `depends_on` descendants
(an absent text is the empty string). -/
structure TaskElem where
  id : String
  status : String
  description : String
  priority : String
  depends_on : List String
deriving DecidableEq, Repr

/-- A story element as `_parse_story` reads it (`points` child text defaults
to `"0"`), with its task child elements. -/
structure StoryElem where
  id : String
  status : String
  description : String
  priority : String
  points : String
  tasks : List TaskElem
deriving DecidableEq, Repr

/-- An epic element as `_parse_epic` reads it, with its story children. -/
structure EpicElem where
  id : String
  status : String
  description : String
  priority : String
  stories : List StoryElem
deriving DecidableEq, Repr

/-- A schema-valid plan document: the root `version` attribute (default
`"1.0"` already applied) and the epic elements. -/
structure PlanDoc where
  version : String
  epics : List EpicElem
deriving DecidableEq, Repr

/-- `PlanGraph._parse_task`: build the node when `Status(status)` and
`int(priority)` succeed (pydantic accepts any string `id`, the empty one
included); on `ValueError` return `None`.  Only non-empty `depends_on`
texts are collected. -/
def parse_task (e : TaskElem) : Option TaskNode :=
  match statusOfString e.status, str_to_int e.priority with
  | some st, some pr =>
    some { id := e.id, description := e.description, status := st, priority := pr,
           depends_on := e.depends_on.filter (fun t => t ≠ "") }
  | _, _ => none

/-- `PlanGraph._parse_story`: parse the task children (dropping failures),
then build the node when `Status(status)`, `int(priority)` and `int(points)`
succeed; on `ValueError` return `None`. -/
def parse_story (e : StoryElem) : Option StoryNode :=
  match statusOfString e.status, str_to_int e.priority, str_to_int e.points with
  | some st, some pr, some pts =>
    some { id := e.id, description := e.description, status := st, priority := pr,
           points := pts, tasks := e.tasks.filterMap parse_task }
  | _, _, _ => none

/-- `PlanGraph._parse_epic`: parse the story children (dropping failures),
then build the node when `Status(status)` and `int(priority)` succeed. -/
def parse_epic (e : EpicElem) : Option EpicNode :=
  match statusOfString e.status, str_to_int e.priority with
  | some st, some pr =>
    some { id := e.id, description := e.description, status := st, priority := pr,
           stories := e.stories.filterMap parse_story }
  | _, _ => none

/-- The plan built in `build_from_xml`: every epic element parsed, failures
dropped. -/
def parse_plan (d : PlanDoc) : PlanNode :=
  { version := d.version, epics := d.epics.filterMap parse_epic }

/-- `graph.py`: `EdgeType`. -/
inductive EdgeType where
  | componentOf
  | dependsOn
deriving DecidableEq, Repr

/-- `graph.py`: `Edge`, the edge data attached under the `edge` key. -/
structure Edge where
  type : EdgeType
deriving DecidableEq, Repr

/-- `graph.py`: `NodeType = Union[TaskNode, StoryNode, EpicNode]`, the
payload attached under a graph node's `node` key. -/
inductive NodeType where
  | task (t : TaskNode)
  | story (s : StoryNode)
  | epic (e : EpicNode)
deriving DecidableEq, Repr

/-- The `id` field of whichever node a payload holds. -/
def NodeType.nid : NodeType → String
  | .task t => t.id
  | .story s => s.id
  | .epic e => e.id

/-- The `description` field of whichever node a payload holds. -/
def NodeType.descr : NodeType → String
  | .task t => t.description
  | .story s => s.description
  | .epic e => e.description

/-- The `status` field of whichever node a payload holds. -/
def NodeType.status : NodeType → Status
  | .task t => t.status
  | .story s => s.status
  | .epic e => e.status

/-- The `networkx.DiGraph` as `PlanGraph` uses it: nodes in insertion order,
each with its optional `node` payload (a node auto-added by `add_edge`
carries none), and edges in insertion order with their `edge` data.  In the
build every source's out-edges are inserted contiguously, so this list order
is also the order `graph.edges` iterates. -/
structure PGraph where
  nodes : List (String × Option NodeType)
  edges : List (String × String × Edge)
deriving DecidableEq, Repr

/-- The empty graph of `PlanGraph.__init__` / `graph.clear()`. -/
def PGraph.empty : PGraph := { nodes := [], edges := [] }

/-- The node ids, in insertion order. -/
def nodeIds (g : PGraph) : List String := g.nodes.map Prod.fst

/-- `id in graph`: whether a node with this id exists. -/
def hasNode (g : PGraph) (i : String) : Bool := g.nodes.any (fun p => p.1 = i)

/-- `graph.nodes[i]` followed by `.get("node")`: `none` when the node does
not exist, `some payload` when it does. -/
def payloadOf (g : PGraph) (i : String) : Option (Option NodeType) :=
  (g.nodes.find? (fun p => p.1 = i)).map Prod.snd

/-- `graph.add_node(i, node=n)`: update the payload in place when the node
exists, else append it. -/
def add_node (g : PGraph) (i : String) (n : NodeType) : PGraph :=
  if hasNode g i then
    { g with nodes := g.nodes.map (fun p => if p.1 = i then (i, some n) else p) }
  else
    { g with nodes := g.nodes ++ [(i, some n)] }

/-- `add_edge`'s implicit endpoint creation: a missing endpoint becomes a
node with no attributes. -/
def ensureNode (g : PGraph) (i : String) : PGraph :=
  if hasNode g i then g else { g with nodes := g.nodes ++ [(i, none)] }

/-- Whether an edge `src -> dst` exists. -/
def hasEdge (g : PGraph) (s d : String) : Bool :=
  g.edges.any (fun e => e.1 = s ∧ e.2.1 = d)

/-- `graph.add_edge(s, d, edge=e)`: add missing endpoints, then set the
edge's data, replacing it when the edge already exists. -/
def add_edge (g : PGraph) (s d : String) (e : Edge) : PGraph :=
  let g1 := ensureNode (ensureNode g s) d
  if hasEdge g1 s d then
    { g1 with edges := g1.edges.map (fun x => if x.1 = s ∧ x.2.1 = d then (s, d, e) else x) }
  else
    { g1 with edges := g1.edges ++ [(s, d, e)] }

/-- The graph-population loop of `build_from_xml` (lines 242-254): for each
epic its node; for each story its node and a ComponentOf edge to its epic;
for each task its node, a ComponentOf edge to its story, and a DependsOn
edge per dependency id (target existence unchecked). -/
def build_graph (p : PlanNode) : PGraph :=
  p.epics.foldl (fun g epic =>
    let g := add_node g epic.id (.epic epic)
    epic.stories.foldl (fun g story =>
      let g := add_node g story.id (.story story)
      let g := add_edge g story.id epic.id { type := .componentOf }
      story.tasks.foldl (fun g task =>
        let g := add_node g task.id (.task task)
        let g := add_edge g task.id story.id { type := .componentOf }
        task.depends_on.foldl (fun g dep =>
          add_edge g task.id dep { type := .dependsOn }) g) g) g)
    PGraph.empty

/-- The three failure kinds of the build taxonomy: `etree.DocumentInvalid`,
`etree.XMLSyntaxError` and `OSError`. -/
inductive FailureKind where
  | schemaViolation
  | malformedDocument
  | ioFailure
deriving DecidableEq, Repr

/-- What one run of lxml parsing plus schema assertion over the input file
can come to: the parsed document, or one of the failure kinds with the
library's message. -/
inductive ValidationOutcome where
  | valid (doc : PlanDoc)
  | invalid (kind : FailureKind) (msg : String)
deriving DecidableEq, Repr

/-- `graph.py`: `XMLValidationError`, with the message it is raised with and
the exception it wraps (`raise ... from e`). -/
structure XMLValidationError where
  message : String
  cause : FailureKind
deriving DecidableEq, Repr

/-- `PlanGraph.validate_xml`: `True` on success; on `DocumentInvalid` raise
`XMLValidationError("XML validation failed: ...")`, on `XMLSyntaxError` or
`OSError` raise `XMLValidationError("Failed to parse XML: ...")`, each
wrapping its cause. -/
def validate_xml : ValidationOutcome → Except XMLValidationError Bool
  | .valid _ => .ok true
  | .invalid .schemaViolation m =>
    .error { message := "XML validation failed: " ++ m, cause := .schemaViolation }
  | .invalid .malformedDocument m =>
    .error { message := "Failed to parse XML: " ++ m, cause := .malformedDocument }
  | .invalid .ioFailure m =>
    .error { message := "Failed to parse XML: " ++ m, cause := .ioFailure }

/-- The mutable state of a `PlanGraph` object: its graph and its plan. -/
structure PlanGraphState where
  graph : PGraph
  plan : Option PlanNode
deriving DecidableEq, Repr

/-- `PlanGraph.__init__`: empty graph, no plan. -/
def initState : PlanGraphState := { graph := PGraph.empty, plan := none }

/-- `PlanGraph.build_from_xml`: validate first — a raised
`XMLValidationError` leaves the state untouched — then clear the graph,
parse the plan and repopulate.  The pair is the state after the call and
the exception, if one was raised. -/
def build_from_xml (st : PlanGraphState) (v : ValidationOutcome) :
    PlanGraphState × Option XMLValidationError :=
  match validate_xml v with
  | .error e => (st, some e)
  | .ok _ =>
    match v with
    | .valid doc =>
      let plan := parse_plan doc
      ({ graph := build_graph plan, plan := some plan }, none)
    | .invalid k m =>
      -- not reachable: validate_xml fails on every invalid outcome
      (st, some { message := m, cause := k })

/-- `models.py`: `GetReadyTasksRequest` (`model_validate` on an already
well-typed record is the identity and is left implicit). -/
structure GetReadyTasksRequest where
  include_in_progress : Bool
deriving DecidableEq, Repr

/-- `models.py`: `ReadyTasksResponse`. -/
structure ReadyTasksResponse where
  tasks : List String
deriving DecidableEq, Repr

/-- `models.py`: `ToMarkdownRequest`. -/
structure ToMarkdownRequest where
  include_status : Bool
deriving DecidableEq, Repr

/-- `models.py`: `MarkdownResponse`. -/
structure MarkdownResponse where
  content : String
deriving DecidableEq, Repr

/-- `models.py`: `ToMermaidRequest`. -/
structure ToMermaidRequest where
  include_descriptions : Bool
deriving DecidableEq, Repr

/-- `models.py`: `MermaidResponse`. -/
structure MermaidResponse where
  content : String
deriving DecidableEq, Repr

/-- `models.py`: `ToGraphvizRequest`. -/
structure ToGraphvizRequest where
  include_descriptions : Bool
deriving DecidableEq, Repr

/-- `models.py`: `GraphvizResponse`. -/
structure GraphvizResponse where
  content : String
deriving DecidableEq, Repr

/-- The dependency targets of a node: `dep` ranging over
`graph.successors(node_id)` restricted to edges whose data has type
`DEPENDS_ON`, in adjacency (= insertion) order. -/
def depTargets (g : PGraph) (i : String) : List String :=
  (g.edges.filter (fun e => e.1 = i ∧ e.2.2.type = EdgeType.dependsOn)).map
    (fun e => e.2.1)

/-- The list comprehension `[self.graph.nodes[dep]["node"] for dep in ...]`:
every dependency target's payload, or `none` for the `KeyError` raised when
a target node carries no `node` attribute (a dangling dependency id). -/
def depNodes (g : PGraph) (i : String) : Option (List NodeType) :=
  (depTargets g i).mapM (fun d => (payloadOf g d).bind id)

/-- The node loop of `get_ready_tasks` over the remaining node entries:
skip non-task payloads, skip Complete tasks, skip InProgress tasks unless
requested, then demand every dependency Complete; a dangling dependency
target raises (`Except.error`). -/
def readyLoop (g : PGraph) (inc : Bool) :
    List (String × Option NodeType) → Except Unit (List String)
  | [] => .ok []
  | (nid, pay) :: rest =>
    match pay with
    | some (.task t) =>
      if t.status = .complete then readyLoop g inc rest
      else if t.status = .inProgress ∧ ¬ inc then readyLoop g inc rest
      else
        match depNodes g nid with
        | none => .error ()
        | some deps =>
          if deps.all (fun d => d.status = .complete) then
            (readyLoop g inc rest).map (fun l => nid :: l)
          else readyLoop g inc rest
    | _ => readyLoop g inc rest

/-- `PlanGraph.get_ready_tasks`: the ready task ids in node iteration
order, or the `KeyError` a dangling dependency target raises. -/
def get_ready_tasks (g : PGraph) (req : GetReadyTasksRequest) :
    Except Unit ReadyTasksResponse :=
  (readyLoop g req.include_in_progress g.nodes).map (fun l => { tasks := l })

/-- `'  ' * level`. -/
def indentOf (level : Nat) : String := String.join (List.replicate level "  ")

/-- One outline line for a node at a level:
`indent + "- " + id + ": " + description`, plus `" (" + status + ")"` when
status display is requested. -/
def renderLine (level : Nat) (n : NodeType) (includeStatus : Bool) : String :=
  let base := indentOf level ++ "- " ++ n.nid ++ ": " ++ n.descr
  if includeStatus then base ++ " (" ++ n.status.value ++ ")" else base

/-- The children found by `_add_task`: sources of incoming edges whose data
has type `COMPONENT_OF`, in insertion order. -/
def childrenOf (g : PGraph) (i : String) : List String :=
  (g.edges.filter (fun e => e.2.1 = i ∧ e.2.2.type = EdgeType.componentOf)).map
    (fun e => e.1)

/-- Whether a node has no outgoing ComponentOf edge (the root test of
`to_markdown`). -/
def isRoot (g : PGraph) (i : String) : Bool :=
  !(g.edges.any (fun e => e.1 = i ∧ e.2.2.type = EdgeType.componentOf))

/-- `_add_task(task_id, visited, level)`: return unchanged when already
visited; otherwise mark visited, render this node's line (an absent payload
raises `AttributeError`, an absent node `KeyError`: `Except.error`), then
run the `for child in children` loop, each child a recursive call that
extends the line list and threads the visited set left to right.  The
result is the emitted lines and the visited set after the call.  `fuel`
bounds the recursion depth structurally; `to_markdown` passes more than any
traversal can consume, and fuel exhaustion is modelled as a failure so no
theorem can mistake a truncated run for output. -/
def addTask (g : PGraph) (incStatus : Bool) :
    Nat → String → List String → Nat → Except Unit (List String × List String)
  | 0, _, _, _ => .error ()
  | fuel + 1, tid, visited, level =>
    if tid ∈ visited then .ok ([], visited)
    else
      match payloadOf g tid with
      | some (some n) =>
        match (childrenOf g tid).foldlM
            (fun (acc : List String × List String) c =>
              (match addTask g incStatus fuel c acc.2 (level + 1) with
               | .error e => .error e
               | .ok (ls, vis) => .ok (acc.1 ++ ls, vis) :
                Except Unit (List String × List String)))
            (([] : List String), tid :: visited) with
        | .error e => .error e
        | .ok (ls, vis) => .ok (renderLine level n incStatus :: ls, vis)
      | _ => .error ()

/-- The root loop of `to_markdown`, extending lines and visited per root. -/
def rootsLoop (g : PGraph) (incStatus : Bool) (fuel : Nat) :
    List String → List String → Except Unit (List String × List String)
  | [], visited => .ok ([], visited)
  | r :: rs, visited =>
    match addTask g incStatus fuel r visited 0 with
    | .error e => .error e
    | .ok (ls1, vis1) =>
      match rootsLoop g incStatus fuel rs vis1 with
      | .error e => .error e
      | .ok (ls2, vis2) => .ok (ls1 ++ ls2, vis2)

/-- `PlanGraph.to_markdown`: visit each root (a node with no outgoing
ComponentOf edge) with a shared visited set and join the emitted lines with
newlines.  The per-root fuel exceeds what any traversal can use. -/
def to_markdown (g : PGraph) (req : ToMarkdownRequest) :
    Except Unit MarkdownResponse :=
  let roots := (nodeIds g).filter (fun i => isRoot g i)
  match rootsLoop g req.include_status (g.nodes.length + 1) roots [] with
  | .error e => .error e
  | .ok (ls, _) => .ok { content := String.intercalate "\n" ls }

/-- One flowchart line of `to_mermaid` for an edge: a dashed arrow for
DependsOn, solid for ComponentOf, bracketed descriptions on both endpoints
when requested; an endpoint without payload raises `AttributeError`. -/
def mermaidLine (g : PGraph) (includeDescriptions : Bool)
    (e : String × String × Edge) : Except Unit String :=
  match (payloadOf g e.1).bind id, (payloadOf g e.2.1).bind id with
  | some srcN, some dstN =>
    let arrow := if e.2.2.type = EdgeType.dependsOn then "-.>" else "-->"
    if includeDescriptions then
      .ok ("    " ++ srcN.nid ++ "[" ++ srcN.descr ++ "] " ++ arrow ++ " "
        ++ dstN.nid ++ "[" ++ dstN.descr ++ "]")
    else
      .ok ("    " ++ srcN.nid ++ " " ++ arrow ++ " " ++ dstN.nid)
  | _, _ => .error ()

/-- `PlanGraph.to_mermaid`: header `graph TD`, then one line per edge in
iteration order. -/
def to_mermaid (g : PGraph) (req : ToMermaidRequest) :
    Except Unit MermaidResponse :=
  match g.edges.mapM (mermaidLine g req.include_descriptions) with
  | .error e => .error e
  | .ok ls => .ok { content := String.intercalate "\n" ("graph TD" :: ls) }

/-- One DOT line of `to_graphviz` for an edge: quoted endpoints, a
`style=dashed` attribute for DependsOn (empty otherwise), label attributes
when descriptions are requested; an endpoint without payload raises
`AttributeError`. -/
def graphvizLine (g : PGraph) (includeDescriptions : Bool)
    (e : String × String × Edge) : Except Unit String :=
  match (payloadOf g e.1).bind id, (payloadOf g e.2.1).bind id with
  | some srcN, some dstN =>
    let style := if e.2.2.type = EdgeType.dependsOn then "style=dashed" else ""
    if includeDescriptions then
      .ok ("    \"" ++ srcN.nid ++ "\" [label=\"" ++ srcN.descr ++ "\"] -> \""
        ++ dstN.nid ++ "\" [label=\"" ++ dstN.descr ++ "\" " ++ style ++ "]")
    else
      .ok ("    \"" ++ srcN.nid ++ "\" -> \"" ++ dstN.nid ++ "\" [" ++ style ++ "]")
  | _, _ => .error ()

/-- `PlanGraph.to_graphviz`: header `digraph \x7b`, one line per edge,
closing `\x7d`. -/
def to_graphviz (g : PGraph) (req : ToGraphvizRequest) :
    Except Unit GraphvizResponse :=
  match g.edges.mapM (graphvizLine g req.include_descriptions) with
  | .error e => .error e
  | .ok ls =>
    .ok { content := String.intercalate "\n" (("digraph \x7b" :: ls) ++ ["\x7d"]) }

/-- `to_markdown` as a call on a `PlanGraph` object. -/
def to_markdown_call (st : PlanGraphState) (req : ToMarkdownRequest) :
    Except Unit MarkdownResponse × PlanGraphState :=
  (to_markdown st.graph req, st)

/-- `to_mermaid` as a call on a `PlanGraph` object. -/
def to_mermaid_call (st : PlanGraphState) (req : ToMermaidRequest) :
    Except Unit MermaidResponse × PlanGraphState :=
  (to_mermaid st.graph req, st)

/-- `to_graphviz` as a call on a `PlanGraph` object. -/
def to_graphviz_call (st : PlanGraphState) (req : ToGraphvizRequest) :
    Except Unit GraphvizResponse × PlanGraphState :=
  (to_graphviz st.graph req, st)

/-- Epic `E1`(InProgress) containing Story `S1`(Complete) containing Tasks
`T1`(Complete) and `T2`(Pending, depends_on `T1`). -/
def doc_ready : PlanDoc :=
  { version := "1.0",
    epics := [{ id := "E1", status := "in_progress", description := "dE1",
                priority := "1",
                stories := [{ id := "S1", status := "complete", description := "dS1",
                              priority := "1", points := "3",
                              tasks := [{ id := "T1", status := "complete",
                                          description := "dT1", priority := "1",
                                          depends_on := [] },
                                        { id := "T2", status := "pending",
                                          description := "dT2", priority := "1",
                                          depends_on := ["T1"] }] }] }] }

/-- The graph built from `doc_ready`. -/
def g_ready : PGraph := (build_from_xml initState (.valid doc_ready)).1.graph

/-- A valid document whose only task depends on the id `missing`, which
matches no element. -/
def doc_dangling : PlanDoc :=
  { version := "1.0",
    epics := [{ id := "E1", status := "in_progress", description := "dE1",
                priority := "1",
                stories := [{ id := "S1", status := "complete", description := "dS1",
                              priority := "1", points := "3",
                              tasks := [{ id := "T2", status := "pending",
                                          description := "dT2", priority := "1",
                                          depends_on := ["missing"] }] }] }] }

/-- The graph built from `doc_dangling`: it holds a payload-less node
`missing`. -/
def g_dangling : PGraph := (build_from_xml initState (.valid doc_dangling)).1.graph

/-- A story whose middle task has `status="bogus"`, between two valid
tasks. -/
def doc_bogus : PlanDoc :=
  { version := "1.0",
    epics := [{ id := "E1", status := "in_progress", description := "dE1",
                priority := "1",
                stories := [{ id := "S1", status := "complete", description := "dS1",
                              priority := "1", points := "3",
                              tasks := [{ id := "T1", status := "complete",
                                          description := "dT1", priority := "1",
                                          depends_on := [] },
                                        { id := "TB", status := "bogus",
                                          description := "dTB", priority := "1",
                                          depends_on := [] },
                                        { id := "T3", status := "pending",
                                          description := "dT3", priority := "1",
                                          depends_on := [] }] }] }] }

/-- The graph built from `doc_bogus`. -/
def g_bogus : PGraph := (build_from_xml initState (.valid doc_bogus)).1.graph

/-- A document whose only task has an empty `id` but a valid status. -/
def doc_emptyid : PlanDoc :=
  { version := "1.0",
    epics := [{ id := "E1", status := "in_progress", description := "dE1",
                priority := "1",
                stories := [{ id := "S1", status := "complete", description := "dS1",
                              priority := "1", points := "3",
                              tasks := [{ id := "", status := "pending",
                                          description := "dT", priority := "1",
                                          depends_on := [] }] }] }] }

/-- The graph built from `doc_emptyid`. -/
def g_emptyid : PGraph := (build_from_xml initState (.valid doc_emptyid)).1.graph

/-- A document whose only task has a non-empty id and a valid status but the
non-numeric priority `"x"`. -/
def doc_badprio : PlanDoc :=
  { version := "1.0",
    epics := [{ id := "E1", status := "in_progress", description := "dE1",
                priority := "1",
                stories := [{ id := "S1", status := "complete", description := "dS1",
                              priority := "1", points := "3",
                              tasks := [{ id := "T1", status := "pending",
                                          description := "dT1", priority := "x",
                                          depends_on := [] }] }] }] }

/-- The graph built from `doc_badprio`. -/
def g_badprio : PGraph := (build_from_xml initState (.valid doc_badprio)).1.graph

/-- The claim's own element count: epic, story and task elements whose `id`
attribute is non-empty and whose `status` attribute maps to the Status
enumeration, nesting disregarded. -/
def claimCounts (i st : String) : Nat :=
  if i ≠ "" ∧ (statusOfString st).isSome then 1 else 0

/-- `claimCounts` summed over every element of a document. -/
def claimNodeCount (d : PlanDoc) : Nat :=
  (d.epics.map (fun e =>
    claimCounts e.id e.status +
    (e.stories.map (fun s =>
      claimCounts s.id s.status +
      (s.tasks.map (fun t => claimCounts t.id t.status)).sum)).sum)).sum

/-- A task element's local validity as the parser enforces it: `status` maps
to the enum and `priority` is numeric. -/
def taskLocallyValid (t : TaskElem) : Bool :=
  (statusOfString t.status).isSome && (str_to_int t.priority).isSome

/-- A story element's local validity: `status` maps, `priority` and `points`
numeric. -/
def storyLocallyValid (s : StoryElem) : Bool :=
  (statusOfString s.status).isSome && (str_to_int s.priority).isSome
    && (str_to_int s.points).isSome

/-- An epic element's local validity: `status` maps and `priority` numeric. -/
def epicLocallyValid (e : EpicElem) : Bool :=
  (statusOfString e.status).isSome && (str_to_int e.priority).isSome

/-- The count of elements that survive parsing by the spec's dropping
policy: locally valid elements all of whose ancestors are locally valid. -/
def specNodeCount (d : PlanDoc) : Nat :=
  ((d.epics.filter epicLocallyValid).map (fun e =>
    1 + ((e.stories.filter storyLocallyValid).map (fun s =>
      1 + (s.tasks.filter taskLocallyValid).length)).sum)).sum

/-- Every element id of a document, dropped elements included. -/
def docElemIds (d : PlanDoc) : List String :=
  d.epics.flatMap (fun e =>
    e.id :: e.stories.flatMap (fun s => s.id :: s.tasks.map TaskElem.id))

/-- Every element id of a parsed plan. -/
def planElemIds (p : PlanNode) : List String :=
  p.epics.flatMap (fun e =>
    e.id :: e.stories.flatMap (fun s => s.id :: s.tasks.map TaskNode.id))

/-- Every id the graph builder can touch for a plan: element ids and
dependency targets. -/
def planIds (p : PlanNode) : List String :=
  p.epics.flatMap (fun e =>
    e.id :: e.stories.flatMap (fun s =>
      s.id :: s.tasks.flatMap (fun t => t.id :: t.depends_on)))

/-- The graph nodes that carry a payload. -/
def payloadIds (g : PGraph) : List String :=
  (g.nodes.filter (fun p => p.2.isSome)).map Prod.fst

/-- How many graph nodes carry a payload. -/
def payloadCount (g : PGraph) : Nat := (payloadIds g).length

/-- Whether a payload holds a `TaskNode`. -/
def isTaskPayload : Option NodeType → Bool
  | some (.task _) => true
  | _ => false

/-- Every DependsOn edge's target exists as a Task node. -/
abbrev DepTargetsAreTasks (g : PGraph) : Prop :=
  ∀ e ∈ g.edges, e.2.2.type = EdgeType.dependsOn →
    isTaskPayload ((payloadOf g e.2.1).bind id) = true

/-- All of a node's direct dependency targets exist and are Complete. -/
def DepsAllComplete (g : PGraph) (i : String) : Prop :=
  ∀ d ∈ depTargets g i,
    ∃ n : NodeType, payloadOf g d = some (some n) ∧ n.status = .complete

/-- The ids of the elements the spec's dropping policy keeps: locally valid
elements under locally valid ancestors, in document order. -/
def specElemIds (d : PlanDoc) : List String :=
  (d.epics.filter epicLocallyValid).flatMap (fun e =>
    e.id :: (e.stories.filter storyLocallyValid).flatMap (fun s =>
      s.id :: (s.tasks.filter taskLocallyValid).map TaskElem.id))

/-- Payload-bearing: the id has a node entry carrying a payload. -/
def PB (g : PGraph) (i : String) : Prop :=
  ∃ n : NodeType, (i, some n) ∈ g.nodes

/-- Reachability via incoming ComponentOf edges: from a node to itself, and
from a node to any child of a reached node. -/
inductive Reaches (g : PGraph) : String → String → Prop
  | refl (i : String) : Reaches g i i
  | tail {i j k : String} : Reaches g i j → k ∈ childrenOf g j → Reaches g i k

/-- Reachable from some root (a node with no outgoing ComponentOf edge). -/
def ReachableFromRoot (g : PGraph) (i : String) : Prop :=
  ∃ r, r ∈ nodeIds g ∧ isRoot g r = true ∧ Reaches g r i

/-- The children loop of `_add_task` as `addTask` runs it. -/
def addChildrenF (g : PGraph) (b : Bool) (fuel : Nat) (cs : List String)
    (acc : List String × List String) (lvl : Nat) :
    Except Unit (List String × List String) :=
  cs.foldlM (fun (acc : List String × List String) c =>
    (match addTask g b fuel c acc.2 lvl with
     | .error e => .error e
     | .ok (ls, vis) => .ok (acc.1 ++ ls, vis) :
      Except Unit (List String × List String))) acc

/-- What a successful `_add_task` call guarantees: the visited set grows by
a duplicate-free block of previously unvisited node ids, all reachable from
the entry id; the entry is visited; every newly visited node has all its
children visited; and the emitted lines are exactly one rendered line per
newly visited node, in visit order, each from that node's own payload. -/
def AddTaskSpec (g : PGraph) (b : Bool) (tid : String) (vis : List String)
    (res : List String × List String) : Prop :=
  ∃ (new : List String) (items : List (String × Nat × NodeType)),
    res.2 = new ++ vis ∧
    new.Nodup ∧
    (∀ j ∈ new, j ∉ vis) ∧
    (∀ j ∈ new, j ∈ nodeIds g) ∧
    (∀ j ∈ new, Reaches g tid j) ∧
    tid ∈ res.2 ∧
    (∀ j ∈ new, ∀ c ∈ childrenOf g j, c ∈ res.2) ∧
    items.map Prod.fst = new.reverse ∧
    res.1 = items.map (fun x => renderLine x.2.1 x.2.2 b) ∧
    (∀ x ∈ items, payloadOf g x.1 = some (some x.2.2))

/-- The same guarantees for the children loop, relative to its entry
accumulator. -/
def AddChildrenSpec (g : PGraph) (b : Bool) (cs : List String)
    (acc res : List String × List String) : Prop :=
  ∃ (new : List String) (items : List (String × Nat × NodeType)),
    res.2 = new ++ acc.2 ∧
    new.Nodup ∧
    (∀ j ∈ new, j ∉ acc.2) ∧
    (∀ j ∈ new, j ∈ nodeIds g) ∧
    (∀ j ∈ new, ∃ c ∈ cs, Reaches g c j) ∧
    (∀ c ∈ cs, c ∈ res.2) ∧
    (∀ j ∈ new, ∀ c ∈ childrenOf g j, c ∈ res.2) ∧
    items.map Prod.fst = new.reverse ∧
    res.1 = acc.1 ++ items.map (fun x => renderLine x.2.1 x.2.2 b) ∧
    (∀ x ∈ items, payloadOf g x.1 = some (some x.2.2))

/-- How many node ids are not yet visited. -/
def unvisitedCount (g : PGraph) (vis : List String) : Nat :=
  ((nodeIds g).filter (fun j => j ∉ vis)).length

/-- The guarantees of the root loop of `to_markdown`. -/
def RootsSpec (g : PGraph) (b : Bool) (rs : List String) (vis : List String)
    (res : List String × List String) : Prop :=
  ∃ (new : List String) (items : List (String × Nat × NodeType)),
    res.2 = new ++ vis ∧
    new.Nodup ∧
    (∀ j ∈ new, j ∉ vis) ∧
    (∀ j ∈ new, j ∈ nodeIds g) ∧
    (∀ j ∈ new, ∃ r ∈ rs, Reaches g r j) ∧
    (∀ r ∈ rs, r ∈ res.2) ∧
    (∀ j ∈ new, ∀ c ∈ childrenOf g j, c ∈ res.2) ∧
    items.map Prod.fst = new.reverse ∧
    res.1 = items.map (fun x => renderLine x.2.1 x.2.2 b) ∧
    (∀ x ∈ items, payloadOf g x.1 = some (some x.2.2))

/-- Epic `E1`(InProgress) containing Story `S1`(Complete) containing Task
`T1`(Complete): the outline scenario hierarchy E1 -> S1 -> T1. -/
def doc_outline : PlanDoc :=
  { version := "1.0",
    epics := [{ id := "E1", status := "in_progress", description := "dE1",
                priority := "1",
                stories := [{ id := "S1", status := "complete", description := "dS1",
                              priority := "1", points := "3",
                              tasks := [{ id := "T1", status := "complete",
                                          description := "dT1", priority := "1",
                                          depends_on := [] }] }] }] }

/-- The graph built from `doc_outline`. -/
def g_outline : PGraph :=
  (build_from_xml initState (.valid doc_outline)).1.graph

/-- Claim C10: for the valid document `doc_dangling`, whose task `T2`
depends on the id `missing` that matches no parsed element, the built graph
contains a node `missing` with no payload, and each of `to_markdown`,
`to_mermaid` and `to_graphviz` fails with an attribute access on the
missing payload (for either flag value) instead of returning rendered
text. -/
theorem c10_dangling_target_breaks_renderers :
    payloadOf g_dangling "missing" = some none ∧
    to_markdown g_dangling { include_status := true } = .error () ∧
    to_markdown g_dangling { include_status := false } = .error () ∧
    to_mermaid g_dangling { include_descriptions := true } = .error () ∧
    to_mermaid g_dangling { include_descriptions := false } = .error () ∧
    to_graphviz g_dangling { include_descriptions := true } = .error () ∧
    to_graphviz g_dangling { include_descriptions := false } = .error () :=
  ⟨rfl, rfl, rfl, rfl, rfl, rfl, rfl⟩

/-- Claim C1 (evaluation at the failing input): in the graph built from
`doc_dangling` the pending task `T2` lists the dependency `missing`, the
builder created a payload-less node for it, and `get_ready_tasks` fails
with a lookup error (the `KeyError` of `self.graph.nodes[dep]["node"]`)
for either flag value, instead of treating the dependency as unmet and
returning normally as the claim requires. -/
theorem c1_dangling_dep_lookup_raises :
    (∃ t : TaskNode, payloadOf g_dangling "T2" = some (some (.task t)) ∧
      t.status = .pending ∧ t.depends_on = ["missing"]) ∧
    payloadOf g_dangling "missing" = some none ∧
    get_ready_tasks g_dangling { include_in_progress := false } = .error () ∧
    get_ready_tasks g_dangling { include_in_progress := true } = .error () :=
  ⟨⟨_, rfl, rfl, rfl⟩, rfl, rfl, rfl⟩

/-- Claim C5: for every prior state and every failing validation outcome
(schema violation, malformed document, or unreadable file), `build_from_xml`
raises the single checked failure type `XMLValidationError` wrapping the
originating cause, and the graph and plan held before the call are left
unchanged. -/
theorem c5_validation_failure_aborts_build (st : PlanGraphState)
    (k : FailureKind) (m : String) :
    ∃ e : XMLValidationError,
      build_from_xml st (.invalid k m) = (st, some e) ∧ e.cause = k := by
  cases k <;> exact ⟨_, rfl, rfl⟩

/-- Claim C6: building twice in succession from the same valid document
yields a graph whose node and edge lists are identical to those after the
first build. -/
theorem c6_rebuild_idempotent (st : PlanGraphState) (d : PlanDoc) :
    (build_from_xml (build_from_xml st (.valid d)).1 (.valid d)).1.graph.nodes =
      (build_from_xml st (.valid d)).1.graph.nodes ∧
    (build_from_xml (build_from_xml st (.valid d)).1 (.valid d)).1.graph.edges =
      (build_from_xml st (.valid d)).1.graph.edges :=
  ⟨rfl, rfl⟩

/-- Claim C9: each renderer call leaves the `PlanGraph` state — its graph
with all nodes, edges and payloads, and its plan — unchanged, and calling
the same renderer again with the same request on the state left behind
yields an identical response. -/
theorem c9_renderers_pure (st : PlanGraphState) (rm : ToMarkdownRequest)
    (rmm : ToMermaidRequest) (rg : ToGraphvizRequest) :
    (to_markdown_call st rm).2 = st ∧
    (to_mermaid_call st rmm).2 = st ∧
    (to_graphviz_call st rg).2 = st ∧
    (to_markdown_call ((to_markdown_call st rm).2) rm).1 = (to_markdown_call st rm).1 ∧
    (to_mermaid_call ((to_mermaid_call st rmm).2) rmm).1 = (to_mermaid_call st rmm).1 ∧
    (to_graphviz_call ((to_graphviz_call st rg).2) rg).1 = (to_graphviz_call st rg).1 :=
  ⟨rfl, rfl, rfl, rfl, rfl, rfl⟩

/-- Counterexample to claim C2 as stated: in `doc_badprio` all three
elements have a non-empty id and a status that maps to the enumeration, so
the claim predicts 3 nodes, but the task's priority `"x"` makes the parser
drop it and the built graph has 2 nodes. -/
theorem c2_counterexample_node_count :
    (build_from_xml initState (.valid doc_badprio)).2 = none ∧
    g_badprio.nodes.length = 2 ∧
    claimNodeCount doc_badprio = 3 :=
  ⟨rfl, rfl, rfl⟩

/-- Counterexample to claim C3 as stated: a task element with an empty `id`
(and valid status and priority) is not dropped — `_parse_task` returns a
node for it, and building `doc_emptyid` puts a node with the empty id into
the graph. -/
theorem c3_counterexample_empty_id_kept :
    parse_task { id := "", status := "pending", description := "dT",
                 priority := "1", depends_on := [] } =
      some { id := "", description := "dT", status := .pending, priority := 1,
             depends_on := [] } ∧
    payloadOf g_emptyid "" =
      some (some (.task { id := "", description := "dT", status := .pending,
                          priority := 1, depends_on := [] })) :=
  ⟨rfl, rfl⟩

/-- Counterexample to claim C8 as stated: `g_dangling` is a built graph
with a reachable root (`missing`, payload-less, no outgoing ComponentOf
edge), yet `to_markdown` raises instead of emitting one line per reachable
node. -/
theorem c8_counterexample_dangling_outline :
    isRoot g_dangling "missing" = true ∧
    "missing" ∈ nodeIds g_dangling ∧
    to_markdown g_dangling { include_status := true } = .error () ∧
    to_markdown g_dangling { include_status := false } = .error () := by
  refine ⟨rfl, ?_, rfl, rfl⟩
  show "missing" ∈ ["E1", "S1", "T2", "missing"]
  simp

theorem mapM_option_some_of_forall {α β : Type} (f : α → Option β) :
    ∀ l : List α, (∀ a ∈ l, ∃ b, f a = some b) → ∃ bs, l.mapM f = some bs := by
  intro l
  induction l with
  | nil => intro _; exact ⟨[], rfl⟩
  | cons a l ih =>
    intro h
    obtain ⟨b, hb⟩ := h a (List.mem_cons_self a l)
    obtain ⟨bs, hbs⟩ := ih (fun x hx => h x (List.mem_cons_of_mem a hx))
    exact ⟨b :: bs, by rw [List.mapM_cons, hb, hbs]; rfl⟩

theorem mapM_option_mem {α β : Type} (f : α → Option β) :
    ∀ (l : List α) (bs : List β), l.mapM f = some bs →
      ∀ b ∈ bs, ∃ a ∈ l, f a = some b := by
  intro l
  induction l with
  | nil =>
    intro bs h b hb
    simp only [List.mapM_nil, Option.pure_def, Option.some.injEq] at h
    subst h
    simp at hb
  | cons a l ih =>
    intro bs h b hb
    simp only [List.mapM_cons] at h
    cases ha : f a with
    | none => rw [ha] at h; simp at h
    | some b0 =>
      rw [ha] at h
      cases hl : l.mapM f with
      | none => rw [hl] at h; simp at h
      | some bs0 =>
        rw [hl] at h
        have h' : b0 :: bs0 = bs := by simpa using h
        subst h'
        rcases List.mem_cons.mp hb with hb | hb
        · exact ⟨a, List.mem_cons_self a l, by rw [ha, hb]⟩
        · obtain ⟨x, hx, hfx⟩ := ih bs0 hl b hb
          exact ⟨x, List.mem_cons_of_mem a hx, hfx⟩

/-- A dependency target is an edge target of a DependsOn edge out of the
node. -/
theorem mem_depTargets {g : PGraph} {i d : String} :
    d ∈ depTargets g i ↔
      ∃ e ∈ g.edges, e.1 = i ∧ e.2.2.type = EdgeType.dependsOn ∧ e.2.1 = d := by
  simp only [depTargets, List.mem_map, List.mem_filter]
  constructor
  · rintro ⟨e, ⟨he, hp⟩, rfl⟩
    rw [decide_eq_true_iff] at hp
    exact ⟨e, he, hp.1, hp.2, rfl⟩
  · rintro ⟨e, he, h1, h2, rfl⟩
    exact ⟨e, ⟨he, by rw [decide_eq_true_iff]; exact ⟨h1, h2⟩⟩, rfl⟩

/-- When every DependsOn target is a Task node, the dependency payload
lookup of `get_ready_tasks` cannot raise. -/
theorem depNodes_some_of_depTargets {g : PGraph} (h : DepTargetsAreTasks g)
    (i : String) : ∃ ds, depNodes g i = some ds := by
  apply mapM_option_some_of_forall
  intro d hd
  obtain ⟨e, he, h1, h2, h3⟩ := mem_depTargets.mp hd
  have := h e he h2
  rw [h3] at this
  cases hpd : (payloadOf g d).bind id with
  | none => rw [hpd] at this; simp [isTaskPayload] at this
  | some n => exact ⟨n, rfl⟩

/-- Under `DepTargetsAreTasks`, the node loop of `get_ready_tasks`
succeeds. -/
theorem readyLoop_ok {g : PGraph} (inc : Bool) (h : DepTargetsAreTasks g) :
    ∀ l, ∃ out, readyLoop g inc l = .ok out := by
  intro l
  induction l with
  | nil => exact ⟨[], rfl⟩
  | cons p rest ih =>
    obtain ⟨out, hout⟩ := ih
    obtain ⟨nid, pay⟩ := p
    match pay with
    | none => exact ⟨out, by simpa [readyLoop] using hout⟩
    | some (.story s) => exact ⟨out, by simpa [readyLoop] using hout⟩
    | some (.epic e) => exact ⟨out, by simpa [readyLoop] using hout⟩
    | some (.task t) =>
      by_cases hc : t.status = .complete
      · exact ⟨out, by simp [readyLoop, hc, hout]⟩
      · by_cases hip : t.status = .inProgress ∧ ¬ inc
        · obtain ⟨hip1, hip2⟩ := hip
          have hinc : inc = false := by simpa using hip2
          subst hinc
          exact ⟨out, by simp [readyLoop, hc, hip1, hout]⟩
        · obtain ⟨ds, hds⟩ := depNodes_some_of_depTargets h nid
          have hip' : ¬ (t.status = Status.inProgress ∧ inc = false) := by
            simpa using hip
          by_cases hall : ds.all (fun d => d.status = .complete) = true
          · exact ⟨nid :: out, by
              simp [readyLoop, hc, hip', hds, hall, hout, Except.map]⟩
          · exact ⟨out, by simp [readyLoop, hc, hip', hds, hall, hout, Except.map]⟩

/-- Membership in the ready list: exactly the ids of task entries that pass
the status filters and whose dependency check succeeds and is all
Complete. -/
theorem readyLoop_mem {g : PGraph} {inc : Bool} :
    ∀ (l : List (String × Option NodeType)) (out : List String),
      readyLoop g inc l = .ok out →
      ∀ x, x ∈ out ↔ ∃ t : TaskNode, (x, some (.task t)) ∈ l ∧
        ¬ t.status = .complete ∧ (t.status = .inProgress → inc = true) ∧
        ∃ ds, depNodes g x = some ds ∧
          ds.all (fun d => d.status = .complete) = true := by
  intro l
  induction l with
  | nil =>
    intro out h x
    simp only [readyLoop, Except.ok.injEq] at h
    subst h
    simp
  | cons p rest ih =>
    obtain ⟨nid, pay⟩ := p
    intro out h x
    cases pay with
    | none =>
      simp only [readyLoop] at h
      rw [ih out h x]
      constructor
      · rintro ⟨t, hm, h2⟩; exact ⟨t, List.mem_cons_of_mem _ hm, h2⟩
      · rintro ⟨t, hm, h2⟩
        rcases List.mem_cons.mp hm with heq | hm
        · simp at heq
        · exact ⟨t, hm, h2⟩
    | some nt =>
      cases nt with
      | story s =>
        simp only [readyLoop] at h
        rw [ih out h x]
        constructor
        · rintro ⟨t, hm, h2⟩; exact ⟨t, List.mem_cons_of_mem _ hm, h2⟩
        · rintro ⟨t, hm, h2⟩
          rcases List.mem_cons.mp hm with heq | hm
          · simp at heq
          · exact ⟨t, hm, h2⟩
      | epic e =>
        simp only [readyLoop] at h
        rw [ih out h x]
        constructor
        · rintro ⟨t, hm, h2⟩; exact ⟨t, List.mem_cons_of_mem _ hm, h2⟩
        · rintro ⟨t, hm, h2⟩
          rcases List.mem_cons.mp hm with heq | hm
          · simp at heq
          · exact ⟨t, hm, h2⟩
      | task t0 =>
        by_cases hc : t0.status = .complete
        · rw [readyLoop, if_pos hc] at h
          rw [ih out h x]
          constructor
          · rintro ⟨t, hm, h2⟩; exact ⟨t, List.mem_cons_of_mem _ hm, h2⟩
          · rintro ⟨t, hm, hnc, h2⟩
            rcases List.mem_cons.mp hm with heq | hm
            · simp only [Prod.mk.injEq, Option.some.injEq] at heq
              obtain rfl : t = t0 := by simpa using heq.2
              exact absurd hc hnc
            · exact ⟨t, hm, hnc, h2⟩
        · by_cases hip : t0.status = .inProgress ∧ ¬ inc
          · rw [readyLoop, if_neg hc, if_pos hip] at h
            rw [ih out h x]
            constructor
            · rintro ⟨t, hm, h2⟩; exact ⟨t, List.mem_cons_of_mem _ hm, h2⟩
            · rintro ⟨t, hm, hnc, hipi, h2⟩
              rcases List.mem_cons.mp hm with heq | hm
              · simp only [Prod.mk.injEq, Option.some.injEq] at heq
                obtain rfl : t = t0 := by simpa using heq.2
                exact absurd (hipi hip.1) (by simpa using hip.2)
              · exact ⟨t, hm, hnc, hipi, h2⟩
          · rw [readyLoop, if_neg hc, if_neg hip] at h
            split at h
            · exact Except.noConfusion h
            · rename_i ds hds
              by_cases hall : ds.all (fun d => d.status = .complete) = true
              · rw [if_pos hall] at h
                cases hrest : readyLoop g inc rest with
                | error e => rw [hrest] at h; exact absurd h (by simp [Except.map])
                | ok out' =>
                  rw [hrest] at h
                  have h' : nid :: out' = out := by simpa [Except.map] using h
                  subst h'
                  rw [List.mem_cons, ih out' hrest x]
                  constructor
                  · rintro (rfl | ⟨t, hm, h2⟩)
                    · refine ⟨t0, List.mem_cons_self _ _, hc, ?_, ds, hds, hall⟩
                      intro hipt
                      by_contra hinc
                      exact hip ⟨hipt, by simpa using hinc⟩
                    · exact ⟨t, List.mem_cons_of_mem _ hm, h2⟩
                  · rintro ⟨t, hm, hnc, hipi, ds', hds', hall'⟩
                    rcases List.mem_cons.mp hm with heq | hm
                    · simp only [Prod.mk.injEq] at heq
                      left; exact heq.1
                    · right; exact ⟨t, hm, hnc, hipi, ds', hds', hall'⟩
              · rw [if_neg hall] at h
                rw [ih out h x]
                constructor
                · rintro ⟨t, hm, h2⟩; exact ⟨t, List.mem_cons_of_mem _ hm, h2⟩
                · rintro ⟨t, hm, hnc, hipi, ds', hds', hall'⟩
                  rcases List.mem_cons.mp hm with heq | hm
                  · simp only [Prod.mk.injEq] at heq
                    obtain rfl : x = nid := heq.1
                    rw [hds] at hds'
                    obtain rfl : ds = ds' := by simpa using hds'
                    exact absurd hall' hall
                  · exact ⟨t, hm, hnc, hipi, ds', hds', hall'⟩

/-- In a list of key-value pairs with distinct keys, a key determines its
value. -/
theorem keys_nodup_snd_eq {α β : Type} :
    ∀ (l : List (α × β)), (l.map Prod.fst).Nodup →
      ∀ (a : α) (b c : β), (a, b) ∈ l → (a, c) ∈ l → b = c := by
  intro l
  induction l with
  | nil => intro _ a b c hb; simp at hb
  | cons p rest ih =>
    intro hnd a b c hb hc
    obtain ⟨x, y⟩ := p
    rw [List.map_cons, List.nodup_cons] at hnd
    rcases List.mem_cons.mp hb with hb | hb <;> rcases List.mem_cons.mp hc with hc | hc
    · simp only [Prod.mk.injEq] at hb hc
      rw [hb.2, hc.2]
    · simp only [Prod.mk.injEq] at hb
      refine absurd ?_ hnd.1
      rw [← hb.1]
      exact List.mem_map.mpr ⟨(a, c), hc, rfl⟩
    · simp only [Prod.mk.injEq] at hc
      refine absurd ?_ hnd.1
      rw [← hc.1]
      exact List.mem_map.mpr ⟨(a, b), hb, rfl⟩
    · exact ih hnd.2 a b c hb hc

/-- Claim C4: on a built graph (distinct node ids) whose task dependency
targets all exist as Task nodes, `get_ready_tasks` returns normally and its
result `out` satisfies: a Pending task all of whose direct dependencies are
Complete is in `out`; the same task with status InProgress is in `out` iff
`include_in_progress` is true; a Complete task is never in `out`.  In the
scenario Epic E1(InProgress) ∋ Story S1(Complete) ∋ Tasks T1(Complete),
T2(Pending, depends_on T1), the call with `include_in_progress := false`
returns exactly `["T2"]`. -/
theorem c4_ready_policy (g : PGraph) (inc : Bool)
    (hnd : (nodeIds g).Nodup) (hdep : DepTargetsAreTasks g) :
    ∃ out, get_ready_tasks g { include_in_progress := inc } = .ok { tasks := out } ∧
      (∀ (nid : String) (t : TaskNode), (nid, some (.task t)) ∈ g.nodes →
        DepsAllComplete g nid →
        (t.status = .pending → nid ∈ out) ∧
        (t.status = .inProgress → (nid ∈ out ↔ inc = true))) ∧
      (∀ (nid : String) (t : TaskNode), (nid, some (.task t)) ∈ g.nodes →
        t.status = .complete → nid ∉ out) ∧
      get_ready_tasks g_ready { include_in_progress := false } =
        .ok { tasks := ["T2"] } := by
  obtain ⟨out, hout⟩ := readyLoop_ok inc hdep g.nodes
  have hmem := readyLoop_mem g.nodes out hout
  have hallof : ∀ nid : String, DepsAllComplete g nid →
      ∃ ds, depNodes g nid = some ds ∧
        ds.all (fun d => d.status = .complete) = true := by
    intro nid hdc
    obtain ⟨ds, hds⟩ := depNodes_some_of_depTargets hdep nid
    refine ⟨ds, hds, ?_⟩
    rw [List.all_eq_true]
    intro d hd
    obtain ⟨a, ha, hfa⟩ := mapM_option_mem _ _ _ hds d hd
    obtain ⟨n, hn, hnc⟩ := hdc a ha
    rw [hn] at hfa
    obtain rfl : n = d := by simpa using hfa
    simp [hnc]
  refine ⟨out, ?_, ?_, ?_, rfl⟩
  · simp [get_ready_tasks, hout, Except.map]
  · intro nid t hmemn hdc
    obtain ⟨ds, hds, hall⟩ := hallof nid hdc
    constructor
    · intro hpend
      exact (hmem nid).mpr ⟨t, hmemn, by simp [hpend], by simp [hpend], ds, hds, hall⟩
    · intro hip
      constructor
      · intro hm
        obtain ⟨t', hmn', _, hipi', _⟩ := (hmem nid).mp hm
        have : some (NodeType.task t') = some (NodeType.task t) :=
          keys_nodup_snd_eq g.nodes hnd nid _ _ hmn' hmemn
        obtain rfl : t' = t := by simpa using this
        exact hipi' hip
      · intro hinc
        exact (hmem nid).mpr
          ⟨t, hmemn, by simp [hip], fun _ => hinc, ds, hds, hall⟩
  · intro nid t hmemn hcomp hm
    obtain ⟨t', hmn', hnc', _⟩ := (hmem nid).mp hm
    have : some (NodeType.task t') = some (NodeType.task t) :=
      keys_nodup_snd_eq g.nodes hnd nid _ _ hmn' hmemn
    obtain rfl : t' = t := by simpa using this
    exact hnc' hcomp

/-- Witness for C4: the policy theorem applied to the concrete scenario
graph `g_ready` with `include_in_progress := false`. -/
theorem c4_ready_policy_witness :
    ∃ out, get_ready_tasks g_ready { include_in_progress := false } =
        .ok { tasks := out } ∧
      (∀ (nid : String) (t : TaskNode), (nid, some (.task t)) ∈ g_ready.nodes →
        DepsAllComplete g_ready nid →
        (t.status = .pending → nid ∈ out) ∧
        (t.status = .inProgress → (nid ∈ out ↔ false = true))) ∧
      (∀ (nid : String) (t : TaskNode), (nid, some (.task t)) ∈ g_ready.nodes →
        t.status = .complete → nid ∉ out) ∧
      get_ready_tasks g_ready { include_in_progress := false } =
        .ok { tasks := ["T2"] } :=
  c4_ready_policy g_ready false (by decide) (by decide)

/-- `ensureNode` adds at most the given id. -/
theorem mem_nodeIds_ensureNode {g : PGraph} {j i : String}
    (h : i ∈ nodeIds (ensureNode g j)) : i ∈ nodeIds g ∨ i = j := by
  unfold ensureNode at h
  by_cases hc : hasNode g j
  · rw [if_pos hc] at h; left; exact h
  · rw [if_neg hc] at h
    simp only [nodeIds, List.map_append, List.mem_append] at h
    rcases h with h | h
    · left; exact h
    · right; simpa using h

/-- `add_node` adds at most the given id. -/
theorem mem_nodeIds_add_node {g : PGraph} {j i : String} {n : NodeType}
    (h : i ∈ nodeIds (add_node g j n)) : i ∈ nodeIds g ∨ i = j := by
  unfold add_node at h
  by_cases hc : hasNode g j
  · rw [if_pos hc] at h
    simp only [nodeIds, List.map_map, List.mem_map, Function.comp] at h
    obtain ⟨p, hp, hfp⟩ := h
    by_cases hpj : p.1 = j
    · rw [if_pos hpj] at hfp
      right; exact hfp.symm
    · rw [if_neg hpj] at hfp
      left; exact List.mem_map.mpr ⟨p, hp, hfp⟩
  · rw [if_neg hc] at h
    simp only [nodeIds, List.map_append, List.mem_append] at h
    rcases h with h | h
    · left; exact h
    · right; simpa using h

/-- `add_edge` adds at most its two endpoints. -/
theorem mem_nodeIds_add_edge {g : PGraph} {a b i : String} {e : Edge}
    (h : i ∈ nodeIds (add_edge g a b e)) : i ∈ nodeIds g ∨ i = a ∨ i = b := by
  unfold add_edge at h
  have hn : i ∈ nodeIds (ensureNode (ensureNode g a) b) := by
    by_cases hc : hasEdge (ensureNode (ensureNode g a) b) a b
    · rw [if_pos hc] at h; exact h
    · rw [if_neg hc] at h; exact h
  rcases mem_nodeIds_ensureNode hn with hn' | hn'
  · rcases mem_nodeIds_ensureNode hn' with hn'' | hn''
    · left; exact hn''
    · right; left; exact hn''
  · right; right; exact hn'

/-- A left fold only adds the ids its step function can add. -/
theorem foldl_nodeIds_subset {α : Type} (f : PGraph → α → PGraph)
    (ids : α → List String)
    (hf : ∀ (g : PGraph) (a : α) (i : String),
      i ∈ nodeIds (f g a) → i ∈ nodeIds g ∨ i ∈ ids a) :
    ∀ (l : List α) (g : PGraph) (i : String),
      i ∈ nodeIds (l.foldl f g) → i ∈ nodeIds g ∨ ∃ a ∈ l, i ∈ ids a := by
  intro l
  induction l with
  | nil => intro g i h; left; exact h
  | cons a l ih =>
    intro g i h
    rcases ih (f g a) i h with h' | ⟨b, hb, hib⟩
    · rcases hf g a i h' with h'' | h''
      · left; exact h''
      · right; exact ⟨a, List.mem_cons_self _ _, h''⟩
    · right; exact ⟨b, List.mem_cons_of_mem _ hb, hib⟩

/-- The dependency fold of one task adds only the task id and its
dependency targets. -/
theorem mem_nodeIds_depsFold {tid : String} {deps : List String} {g : PGraph}
    {i : String}
    (h : i ∈ nodeIds (deps.foldl (fun g dep =>
      add_edge g tid dep { type := .dependsOn }) g)) :
    i ∈ nodeIds g ∨ i = tid ∨ i ∈ deps := by
  have := foldl_nodeIds_subset
    (fun g dep => add_edge g tid dep { type := .dependsOn })
    (fun dep => [tid, dep])
    (fun g a i h => by
      rcases mem_nodeIds_add_edge h with h' | h' | h'
      · left; exact h'
      · right; simp [h']
      · right; simp [h'])
    deps g i h
  rcases this with h' | ⟨a, ha, hia⟩
  · left; exact h'
  · rcases List.mem_cons.mp hia with rfl | hia
    · right; left; rfl
    · right; right
      obtain rfl : i = a := by simpa using hia
      exact ha

/-- The task fold of one story adds only task ids, the story id and
dependency targets. -/
theorem mem_nodeIds_tasksFold {sid : String} {tasks : List TaskNode}
    {g : PGraph} {i : String}
    (h : i ∈ nodeIds (tasks.foldl (fun g task =>
      let g := add_node g task.id (.task task)
      let g := add_edge g task.id sid { type := .componentOf }
      task.depends_on.foldl (fun g dep =>
        add_edge g task.id dep { type := .dependsOn }) g) g)) :
    i ∈ nodeIds g ∨ ∃ t ∈ tasks, i = t.id ∨ i = sid ∨ i ∈ t.depends_on := by
  refine foldl_nodeIds_subset _
    (fun t => t.id :: sid :: t.depends_on) ?_ tasks g i h |>.imp id ?_
  · intro g t j hj
    rcases mem_nodeIds_depsFold hj with hj' | hj' | hj'
    · rcases mem_nodeIds_add_edge hj' with hj'' | hj'' | hj''
      · rcases mem_nodeIds_add_node hj'' with hj3 | hj3
        · left; exact hj3
        · right; simp [hj3]
      · right; simp [hj'']
      · right; simp [hj'']
    · right; simp [hj']
    · right; simp [hj']
  · rintro ⟨t, ht, hit⟩
    refine ⟨t, ht, ?_⟩
    rcases List.mem_cons.mp hit with rfl | hit
    · left; rfl
    · rcases List.mem_cons.mp hit with rfl | hit
      · right; left; rfl
      · right; right; exact hit

/-- The story fold of one epic adds only ids from its stories and the epic
id. -/
theorem mem_nodeIds_storiesFold {eid : String} {stories : List StoryNode}
    {g : PGraph} {i : String}
    (h : i ∈ nodeIds (stories.foldl (fun g story =>
      let g := add_node g story.id (.story story)
      let g := add_edge g story.id eid { type := .componentOf }
      story.tasks.foldl (fun g task =>
        let g := add_node g task.id (.task task)
        let g := add_edge g task.id story.id { type := .componentOf }
        task.depends_on.foldl (fun g dep =>
          add_edge g task.id dep { type := .dependsOn }) g) g) g)) :
    i ∈ nodeIds g ∨ ∃ s ∈ stories, i = s.id ∨ i = eid ∨
      ∃ t ∈ s.tasks, i = t.id ∨ i ∈ t.depends_on := by
  refine foldl_nodeIds_subset _
    (fun s => s.id :: eid :: s.tasks.flatMap (fun t => t.id :: t.depends_on))
    ?_ stories g i h |>.imp id ?_
  · intro g s j hj
    rcases mem_nodeIds_tasksFold hj with hj' | ⟨t, ht, hj'⟩
    · rcases mem_nodeIds_add_edge hj' with hj'' | hj'' | hj''
      · rcases mem_nodeIds_add_node hj'' with hj3 | hj3
        · left; exact hj3
        · right; simp [hj3]
      · right; simp [hj'']
      · right; simp [hj'']
    · right
      rcases hj' with rfl | rfl | hj'
      · simp only [List.mem_cons]
        right; right
        exact List.mem_flatMap.mpr ⟨t, ht, List.mem_cons_self _ _⟩
      · simp
      · simp only [List.mem_cons]
        right; right
        exact List.mem_flatMap.mpr ⟨t, ht, List.mem_cons_of_mem _ hj'⟩
  · rintro ⟨s, hs, his⟩
    refine ⟨s, hs, ?_⟩
    rcases List.mem_cons.mp his with rfl | his
    · left; rfl
    · rcases List.mem_cons.mp his with rfl | his
      · right; left; rfl
      · right; right
        obtain ⟨t, ht, hit⟩ := List.mem_flatMap.mp his
        refine ⟨t, ht, ?_⟩
        rcases List.mem_cons.mp hit with rfl | hit
        · left; rfl
        · right; exact hit

/-- Every node id of a built graph is an id mentioned by the plan: an epic,
story or task id, or a dependency target. -/
theorem mem_nodeIds_build_graph {p : PlanNode} {i : String}
    (h : i ∈ nodeIds (build_graph p)) : i ∈ planIds p := by
  unfold build_graph at h
  have := foldl_nodeIds_subset _
    (fun epic => epic.id :: epic.stories.flatMap (fun s =>
      s.id :: s.tasks.flatMap (fun t => t.id :: t.depends_on)))
    ?hf p.epics PGraph.empty i h
  case hf =>
    intro g e j hj
    rcases mem_nodeIds_storiesFold hj with hj' | ⟨s, hs, hj'⟩
    · rcases mem_nodeIds_add_node hj' with hj'' | hj''
      · left; exact hj''
      · right; simp [hj'']
    · right
      simp only [List.mem_cons]
      rcases hj' with rfl | rfl | ⟨t, ht, hj'⟩
      · right
        exact List.mem_flatMap.mpr ⟨s, hs, List.mem_cons_self _ _⟩
      · left; rfl
      · right
        refine List.mem_flatMap.mpr ⟨s, hs, List.mem_cons_of_mem _ ?_⟩
        refine List.mem_flatMap.mpr ⟨t, ht, ?_⟩
        rcases hj' with rfl | hj'
        · exact List.mem_cons_self _ _
        · exact List.mem_cons_of_mem _ hj'
  rcases this with h' | ⟨e, he, hie⟩
  · simp [nodeIds, PGraph.empty] at h'
  · exact List.mem_flatMap.mpr ⟨e, he, hie⟩

/-- Claim C7: after a second successful build the graph contains only ids
derived from the second document — no node id present only in the first
build survives. -/
theorem c7_full_replacement (st : PlanGraphState) (d1 d2 : PlanDoc) :
    ∀ i ∈ nodeIds
      (build_from_xml (build_from_xml st (.valid d1)).1 (.valid d2)).1.graph,
      i ∈ planIds (parse_plan d2) := by
  intro i h
  exact mem_nodeIds_build_graph h

/-- Witness for C7 at concrete documents: the only ids after rebuilding
from `doc_dangling` over a `doc_ready` build are ids of `doc_dangling`. -/
theorem c7_full_replacement_witness :
    "T2" ∈ nodeIds
      (build_from_xml (build_from_xml initState (.valid doc_ready)).1
        (.valid doc_dangling)).1.graph ∧
    "T2" ∈ planIds (parse_plan doc_dangling) :=
  ⟨by decide, c7_full_replacement initState doc_ready doc_dangling "T2" (by decide)⟩

/-- `_parse_task` succeeds exactly on locally valid task elements. -/
theorem parse_task_isSome (t : TaskElem) :
    (parse_task t).isSome = taskLocallyValid t := by
  unfold parse_task taskLocallyValid
  cases statusOfString t.status <;> cases str_to_int t.priority <;> simp

/-- `_parse_story` succeeds exactly on locally valid story elements. -/
theorem parse_story_isSome (s : StoryElem) :
    (parse_story s).isSome = storyLocallyValid s := by
  unfold parse_story storyLocallyValid
  cases statusOfString s.status <;> cases str_to_int s.priority <;>
    cases str_to_int s.points <;> simp

/-- `_parse_epic` succeeds exactly on locally valid epic elements. -/
theorem parse_epic_isSome (e : EpicElem) :
    (parse_epic e).isSome = epicLocallyValid e := by
  unfold parse_epic epicLocallyValid
  cases statusOfString e.status <;> cases str_to_int e.priority <;> simp

/-- A parsed task keeps its element's id. -/
theorem parse_task_id {t : TaskElem} {n : TaskNode} (h : parse_task t = some n) :
    n.id = t.id := by
  unfold parse_task at h
  split at h
  · obtain rfl : _ = n := by simpa using h
    rfl
  · exact Option.noConfusion h

/-- A parsed story keeps its element's id and parses its task children. -/
theorem parse_story_id_tasks {s : StoryElem} {n : StoryNode}
    (h : parse_story s = some n) :
    n.id = s.id ∧ n.tasks = s.tasks.filterMap parse_task := by
  unfold parse_story at h
  split at h
  · obtain rfl : _ = n := by simpa using h
    exact ⟨rfl, rfl⟩
  · exact Option.noConfusion h

/-- A parsed epic keeps its element's id and parses its story children. -/
theorem parse_epic_id_stories {e : EpicElem} {n : EpicNode}
    (h : parse_epic e = some n) :
    n.id = e.id ∧ n.stories = e.stories.filterMap parse_story := by
  unfold parse_epic at h
  split at h
  · obtain rfl : _ = n := by simpa using h
    exact ⟨rfl, rfl⟩
  · exact Option.noConfusion h

/-- Parsing then flattening agrees with filtering by local validity then
flattening, whenever the per-element flattenings agree. -/
theorem flatMap_filterMap_eq {α β γ : Type} (p : α → Option β) (q : α → Bool)
    (f : β → List γ) (f' : α → List γ)
    (hpq : ∀ a, (p a).isSome = q a)
    (hf : ∀ a b, p a = some b → f b = f' a) :
    ∀ l : List α, (l.filterMap p).flatMap f = (l.filter q).flatMap f' := by
  intro l
  induction l with
  | nil => rfl
  | cons a l ih =>
    cases hp : p a with
    | none =>
      have hq : q a = false := by have := hpq a; rw [hp] at this; simpa using this.symm
      simp [List.filterMap_cons, hp, List.filter_cons, hq, ih]
    | some b =>
      have hq : q a = true := by have := hpq a; rw [hp] at this; simpa using this.symm
      simp [List.filterMap_cons, hp, List.filter_cons, hq, ih, hf a b hp]

/-- The parsed tasks of a task-element list carry exactly the ids of its
locally valid elements, in order. -/
theorem filterMap_parse_task_ids (ts : List TaskElem) :
    (ts.filterMap parse_task).map TaskNode.id =
      (ts.filter taskLocallyValid).map TaskElem.id := by
  induction ts with
  | nil => rfl
  | cons t ts ih =>
    cases hp : parse_task t with
    | none =>
      have hq : taskLocallyValid t = false := by
        have := parse_task_isSome t; rw [hp] at this; simpa using this.symm
      simp [List.filterMap_cons, hp, List.filter_cons, hq, ih]
    | some n =>
      have hq : taskLocallyValid t = true := by
        have := parse_task_isSome t; rw [hp] at this; simpa using this.symm
      simp [List.filterMap_cons, hp, List.filter_cons, hq, ih, parse_task_id hp]

/-- The element ids of the parsed plan are exactly the spec-side kept
ids. -/
theorem planElemIds_parse (d : PlanDoc) :
    planElemIds (parse_plan d) = specElemIds d := by
  unfold planElemIds parse_plan specElemIds
  refine flatMap_filterMap_eq parse_epic epicLocallyValid _ _
    parse_epic_isSome ?_ d.epics
  intro e n he
  obtain ⟨hid, hst⟩ := parse_epic_id_stories he
  rw [hid, hst]
  congr 1
  refine flatMap_filterMap_eq parse_story storyLocallyValid _ _
    parse_story_isSome ?_ e.stories
  intro s m hs
  obtain ⟨hid2, hts⟩ := parse_story_id_tasks hs
  rw [hid2, hts]
  congr 1
  exact filterMap_parse_task_ids s.tasks

/-- A flatMap over a sublist with pointwise-sublist images is a sublist. -/
theorem sublist_flatMap {α β : Type} {l' l : List α} (h : List.Sublist l' l)
    (f' f : α → List β) (hf : ∀ a, List.Sublist (f' a) (f a)) :
    List.Sublist (l'.flatMap f') (l.flatMap f) := by
  induction h with
  | slnil => simp
  | cons a _ ih =>
    rw [List.flatMap_cons]
    exact ih.trans (List.sublist_append_right _ _)
  | cons₂ a _ ih =>
    rw [List.flatMap_cons, List.flatMap_cons]
    exact List.Sublist.append (hf a) ih

/-- The kept ids are a sublist of all element ids. -/
theorem specElemIds_sublist (d : PlanDoc) :
    List.Sublist (specElemIds d) (docElemIds d) := by
  unfold specElemIds docElemIds
  refine sublist_flatMap (List.filter_sublist _) _ _ ?_
  intro e
  refine List.Sublist.cons₂ _ ?_
  refine sublist_flatMap (List.filter_sublist _) _ _ ?_
  intro s
  refine List.Sublist.cons₂ _ ?_
  exact List.Sublist.map _ (List.filter_sublist _)

/-- A generic sum-of-counts equals length-of-flatMap bridge. -/
theorem sum_map_eq_length_flatMap {α β : Type} (f : α → List β) (cnt : α → Nat)
    (h : ∀ a, cnt a = (f a).length) :
    ∀ l : List α, (l.map cnt).sum = (l.flatMap f).length := by
  intro l
  induction l with
  | nil => rfl
  | cons a l ih => simp [List.flatMap_cons, h a, ih]

/-- The spec-side node count is the length of the kept-id list. -/
theorem specNodeCount_eq_length (d : PlanDoc) :
    specNodeCount d = (specElemIds d).length := by
  unfold specNodeCount specElemIds
  refine sum_map_eq_length_flatMap _ _ ?_ _
  intro e
  simp only [List.length_cons]
  have := sum_map_eq_length_flatMap
    (fun s : StoryElem => s.id :: (s.tasks.filter taskLocallyValid).map TaskElem.id)
    (fun s : StoryElem => 1 + (s.tasks.filter taskLocallyValid).length)
    (fun s => by simp [Nat.add_comm]) (e.stories.filter storyLocallyValid)
  omega

/-- `hasNode` decides membership of the node-id list. -/
theorem hasNode_iff {g : PGraph} {i : String} :
    hasNode g i = true ↔ i ∈ nodeIds g := by
  unfold hasNode nodeIds
  rw [List.any_eq_true]
  constructor
  · rintro ⟨p, hp, hd⟩
    rw [decide_eq_true_iff] at hd
    exact List.mem_map.mpr ⟨p, hp, hd⟩
  · intro hm
    obtain ⟨p, hp, hd⟩ := List.mem_map.mp hm
    exact ⟨p, hp, by rw [decide_eq_true_iff]; exact hd⟩

/-- Updating an existing node's payload does not change the id list. -/
theorem nodeIds_add_node_of_hasNode {g : PGraph} {j : String} {n : NodeType}
    (h : hasNode g j = true) : nodeIds (add_node g j n) = nodeIds g := by
  unfold add_node
  rw [if_pos h]
  show (g.nodes.map _).map Prod.fst = g.nodes.map Prod.fst
  rw [List.map_map]
  apply List.map_congr_left
  intro p _
  by_cases hpj : p.1 = j
  · simp [Function.comp, hpj]
  · simp [Function.comp, hpj]

/-- `add_node` keeps node ids distinct. -/
theorem nodeIds_nodup_add_node {g : PGraph} {j : String} {n : NodeType}
    (h : (nodeIds g).Nodup) : (nodeIds (add_node g j n)).Nodup := by
  by_cases hc : hasNode g j
  · rw [nodeIds_add_node_of_hasNode hc]; exact h
  · unfold add_node
    rw [if_neg hc]
    have hj : j ∉ nodeIds g := fun hm => hc (hasNode_iff.mpr hm)
    show ((g.nodes ++ [(j, some n)]).map Prod.fst).Nodup
    rw [List.map_append, List.nodup_append]
    refine ⟨h, by simp, ?_⟩
    intro a ha hb
    rw [List.map_cons, List.map_nil, List.mem_singleton] at hb
    subst hb
    exact hj ha

/-- `ensureNode` keeps node ids distinct. -/
theorem nodeIds_nodup_ensureNode {g : PGraph} {j : String}
    (h : (nodeIds g).Nodup) : (nodeIds (ensureNode g j)).Nodup := by
  unfold ensureNode
  by_cases hc : hasNode g j
  · rw [if_pos hc]; exact h
  · rw [if_neg hc]
    have hj : j ∉ nodeIds g := fun hm => hc (hasNode_iff.mpr hm)
    show ((g.nodes ++ [(j, none)]).map Prod.fst).Nodup
    rw [List.map_append, List.nodup_append]
    refine ⟨h, by simp, ?_⟩
    intro a ha hb
    rw [List.map_cons, List.map_nil, List.mem_singleton] at hb
    subst hb
    exact hj ha

/-- `add_edge` keeps node ids distinct. -/
theorem nodeIds_nodup_add_edge {g : PGraph} {a b : String} {e : Edge}
    (h : (nodeIds g).Nodup) : (nodeIds (add_edge g a b e)).Nodup := by
  unfold add_edge
  have h1 : (nodeIds (ensureNode (ensureNode g a) b)).Nodup :=
    nodeIds_nodup_ensureNode (nodeIds_nodup_ensureNode h)
  by_cases hc : hasEdge (ensureNode (ensureNode g a) b) a b
  · rw [if_pos hc]; exact h1
  · rw [if_neg hc]; exact h1

/-- A left fold preserves any invariant its step preserves. -/
theorem foldl_preserve {α : Type} (P : PGraph → Prop) (f : PGraph → α → PGraph)
    (hf : ∀ g a, P g → P (f g a)) :
    ∀ (l : List α) (g : PGraph), P g → P (l.foldl f g) := by
  intro l
  induction l with
  | nil => intro g h; exact h
  | cons a l ih => intro g h; exact ih (f g a) (hf g a h)

/-- Ids are unique across the whole built graph. -/
theorem build_graph_nodeIds_nodup (p : PlanNode) :
    (nodeIds (build_graph p)).Nodup := by
  unfold build_graph
  refine foldl_preserve (fun g => (nodeIds g).Nodup) _ ?_ p.epics PGraph.empty
    (by simp [nodeIds, PGraph.empty])
  intro g e hg
  refine foldl_preserve (fun g => (nodeIds g).Nodup) _ ?_ e.stories _
    (nodeIds_nodup_add_node hg)
  intro g st hg
  refine foldl_preserve (fun g => (nodeIds g).Nodup) _ ?_ st.tasks _
    (nodeIds_nodup_add_edge (nodeIds_nodup_add_node hg))
  intro g t hg
  refine foldl_preserve (fun g => (nodeIds g).Nodup) _ ?_ t.depends_on _
    (nodeIds_nodup_add_edge (nodeIds_nodup_add_node hg))
  intro g dep hg
  exact nodeIds_nodup_add_edge hg

/-- `hasNode` yields a witnessing entry. -/
theorem hasNode_exists {g : PGraph} {j : String} (h : hasNode g j = true) :
    ∃ p ∈ g.nodes, p.1 = j := by
  unfold hasNode at h
  rw [List.any_eq_true] at h
  obtain ⟨p, hp, hd⟩ := h
  rw [decide_eq_true_iff] at hd
  exact ⟨p, hp, hd⟩

/-- `ensureNode` adds no payload. -/
theorem PB_ensureNode {g : PGraph} {j i : String} :
    PB (ensureNode g j) i ↔ PB g i := by
  unfold ensureNode
  by_cases hc : hasNode g j
  · rw [if_pos hc]
  · rw [if_neg hc]
    unfold PB
    simp only [List.mem_append, List.mem_singleton]
    constructor
    · rintro ⟨n, hn | hn⟩
      · exact ⟨n, hn⟩
      · exact absurd hn (by simp)
    · rintro ⟨n, hn⟩
      exact ⟨n, Or.inl hn⟩

/-- `add_edge` adds no payload. -/
theorem PB_add_edge {g : PGraph} {a b i : String} {e : Edge} :
    PB (add_edge g a b e) i ↔ PB g i := by
  unfold add_edge
  have h2 : PB (ensureNode (ensureNode g a) b) i ↔ PB g i :=
    PB_ensureNode.trans PB_ensureNode
  by_cases hc : hasEdge (ensureNode (ensureNode g a) b) a b
  · rw [if_pos hc]; exact h2
  · rw [if_neg hc]; exact h2

/-- `add_node` makes exactly its id payload-bearing. -/
theorem PB_add_node {g : PGraph} {j i : String} {n : NodeType} :
    PB (add_node g j n) i ↔ i = j ∨ PB g i := by
  unfold add_node
  by_cases hc : hasNode g j
  · rw [if_pos hc]
    unfold PB
    constructor
    · rintro ⟨m, hm⟩
      obtain ⟨p, hp, hupd⟩ := List.mem_map.mp hm
      by_cases hpj : p.1 = j
      · rw [if_pos hpj] at hupd
        rw [Prod.mk.injEq] at hupd
        left
        exact hupd.1.symm
      · rw [if_neg hpj] at hupd
        right
        exact ⟨m, hupd ▸ hp⟩
    · rintro (rfl | ⟨m, hm⟩)
      · obtain ⟨p, hp, hpj⟩ := hasNode_exists hc
        exact ⟨n, List.mem_map.mpr ⟨p, hp, by rw [if_pos hpj]⟩⟩
      · by_cases hij : i = j
        · subst hij
          obtain ⟨p, hp, hpj⟩ := hasNode_exists hc
          exact ⟨n, List.mem_map.mpr ⟨p, hp, by rw [if_pos hpj]⟩⟩
        · exact ⟨m, List.mem_map.mpr ⟨(i, some m), hm, by
            rw [if_neg (by simpa using hij)]⟩⟩
  · rw [if_neg hc]
    unfold PB
    simp only [List.mem_append, List.mem_singleton]
    constructor
    · rintro ⟨m, hm | hm⟩
      · right; exact ⟨m, hm⟩
      · left; rw [Prod.mk.injEq] at hm; exact hm.1
    · rintro (rfl | ⟨m, hm⟩)
      · exact ⟨n, Or.inr rfl⟩
      · exact ⟨m, Or.inl hm⟩

/-- A left fold makes payload-bearing exactly the ids its steps add. -/
theorem foldl_pb {α : Type} (f : PGraph → α → PGraph) (ids : α → List String)
    (hf : ∀ (g : PGraph) (a : α) (i : String),
      PB (f g a) i ↔ i ∈ ids a ∨ PB g i) :
    ∀ (l : List α) (g : PGraph) (i : String),
      PB (l.foldl f g) i ↔ (∃ a ∈ l, i ∈ ids a) ∨ PB g i := by
  intro l
  induction l with
  | nil => intro g i; simp
  | cons a l ih =>
    intro g i
    rw [List.foldl_cons, ih, hf]
    constructor
    · rintro (⟨b, hb, hib⟩ | hia | hpb)
      · left; exact ⟨b, List.mem_cons_of_mem _ hb, hib⟩
      · left; exact ⟨a, List.mem_cons_self _ _, hia⟩
      · right; exact hpb
    · rintro (⟨b, hb, hib⟩ | hpb)
      · rcases List.mem_cons.mp hb with rfl | hb
        · right; left; exact hib
        · left; exact ⟨b, hb, hib⟩
      · right; right; exact hpb

/-- The dependency fold adds no payload. -/
theorem PB_depsFold {tid : String} {deps : List String} {g : PGraph}
    {i : String} :
    PB (deps.foldl (fun g dep =>
      add_edge g tid dep { type := .dependsOn }) g) i ↔ PB g i := by
  induction deps generalizing g with
  | nil => exact Iff.rfl
  | cons d deps ih => rw [List.foldl_cons]; exact ih.trans PB_add_edge

/-- The task fold of one story makes payload-bearing exactly its task
ids. -/
theorem PB_tasksFold {sid : String} {tasks : List TaskNode} {g : PGraph}
    {i : String} :
    PB (tasks.foldl (fun g task =>
      let g := add_node g task.id (.task task)
      let g := add_edge g task.id sid { type := .componentOf }
      task.depends_on.foldl (fun g dep =>
        add_edge g task.id dep { type := .dependsOn }) g) g) i ↔
      (∃ t ∈ tasks, i = t.id) ∨ PB g i := by
  have hstep : ∀ (g : PGraph) (t : TaskNode) (j : String),
      PB ((fun (g : PGraph) (task : TaskNode) =>
        let g := add_node g task.id (NodeType.task task)
        let g := add_edge g task.id sid { type := .componentOf }
        task.depends_on.foldl (fun g dep =>
          add_edge g task.id dep { type := .dependsOn }) g) g t) j ↔
        j ∈ [t.id] ∨ PB g j := by
    intro g t j
    simp only
    rw [PB_depsFold, PB_add_edge, PB_add_node]
    simp
  rw [foldl_pb _ _ hstep]
  simp

/-- The story fold of one epic makes payload-bearing exactly its story and
task ids. -/
theorem PB_storiesFold {eid : String} {stories : List StoryNode} {g : PGraph}
    {i : String} :
    PB (stories.foldl (fun g story =>
      let g := add_node g story.id (.story story)
      let g := add_edge g story.id eid { type := .componentOf }
      story.tasks.foldl (fun g task =>
        let g := add_node g task.id (.task task)
        let g := add_edge g task.id story.id { type := .componentOf }
        task.depends_on.foldl (fun g dep =>
          add_edge g task.id dep { type := .dependsOn }) g) g) g) i ↔
      (∃ s ∈ stories, i = s.id ∨ ∃ t ∈ s.tasks, i = t.id) ∨ PB g i := by
  have hstep : ∀ (g : PGraph) (st : StoryNode) (j : String),
      PB ((fun (g : PGraph) (story : StoryNode) =>
        let g := add_node g story.id (NodeType.story story)
        let g := add_edge g story.id eid { type := .componentOf }
        story.tasks.foldl (fun g task =>
          let g := add_node g task.id (NodeType.task task)
          let g := add_edge g task.id story.id { type := .componentOf }
          task.depends_on.foldl (fun g dep =>
            add_edge g task.id dep { type := .dependsOn }) g) g) g st) j ↔
        j ∈ st.id :: st.tasks.map TaskNode.id ∨ PB g j := by
    intro g st j
    simp only
    rw [PB_tasksFold, PB_add_edge, PB_add_node]
    constructor
    · rintro (⟨t, ht, rfl⟩ | rfl | hpb)
      · exact Or.inl (List.mem_cons_of_mem _ (List.mem_map.mpr ⟨t, ht, rfl⟩))
      · exact Or.inl (List.mem_cons_self _ _)
      · exact Or.inr hpb
    · rintro (hm | hpb)
      · rcases List.mem_cons.mp hm with rfl | hm
        · right; left; rfl
        · obtain ⟨t, ht, rfl⟩ := List.mem_map.mp hm
          left; exact ⟨t, ht, rfl⟩
      · right; right; exact hpb
  rw [foldl_pb _ _ hstep]
  constructor
  · rintro (⟨s, hs, his⟩ | hpb)
    · left
      refine ⟨s, hs, ?_⟩
      rcases List.mem_cons.mp his with rfl | his
      · left; rfl
      · right
        obtain ⟨t, ht, rfl⟩ := List.mem_map.mp his
        exact ⟨t, ht, rfl⟩
    · right; exact hpb
  · rintro (⟨s, hs, rfl | ⟨t, ht, rfl⟩⟩ | hpb)
    · left; exact ⟨s, hs, List.mem_cons_self _ _⟩
    · left
      exact ⟨s, hs, List.mem_cons_of_mem _ (List.mem_map.mpr ⟨t, ht, rfl⟩)⟩
    · right; exact hpb

/-- The payload-bearing ids of a built graph are exactly the plan's element
ids. -/
theorem PB_build_graph {p : PlanNode} {i : String} :
    PB (build_graph p) i ↔ i ∈ planElemIds p := by
  unfold build_graph
  have hstep : ∀ (g : PGraph) (e : EpicNode) (j : String),
      PB ((fun (g : PGraph) (epic : EpicNode) =>
        let g := add_node g epic.id (NodeType.epic epic)
        epic.stories.foldl (fun g story =>
          let g := add_node g story.id (NodeType.story story)
          let g := add_edge g story.id epic.id { type := .componentOf }
          story.tasks.foldl (fun g task =>
            let g := add_node g task.id (NodeType.task task)
            let g := add_edge g task.id story.id { type := .componentOf }
            task.depends_on.foldl (fun g dep =>
              add_edge g task.id dep { type := .dependsOn }) g) g) g) g e) j ↔
        j ∈ e.id :: e.stories.flatMap (fun s =>
          s.id :: s.tasks.map TaskNode.id) ∨ PB g j := by
    intro g e j
    simp only
    rw [PB_storiesFold, PB_add_node]
    constructor
    · rintro (⟨st, hs, rfl | ⟨t, ht, rfl⟩⟩ | rfl | hpb)
      · refine Or.inl (List.mem_cons_of_mem _ ?_)
        exact List.mem_flatMap.mpr ⟨st, hs, List.mem_cons_self _ _⟩
      · refine Or.inl (List.mem_cons_of_mem _ ?_)
        exact List.mem_flatMap.mpr
          ⟨st, hs, List.mem_cons_of_mem _ (List.mem_map.mpr ⟨t, ht, rfl⟩)⟩
      · exact Or.inl (List.mem_cons_self _ _)
      · exact Or.inr hpb
    · rintro (hm | hpb)
      · rcases List.mem_cons.mp hm with rfl | hm
        · right; left; rfl
        · obtain ⟨st, hs, hj⟩ := List.mem_flatMap.mp hm
          rcases List.mem_cons.mp hj with rfl | hj
          · left; exact ⟨st, hs, Or.inl rfl⟩
          · obtain ⟨t, ht, rfl⟩ := List.mem_map.mp hj
            left; exact ⟨st, hs, Or.inr ⟨t, ht, rfl⟩⟩
      · right; right; exact hpb
  rw [foldl_pb _ _ hstep]
  have hempty : ¬ PB PGraph.empty i := by
    rintro ⟨n, hn⟩
    simp [PGraph.empty] at hn
  unfold planElemIds
  rw [List.mem_flatMap]
  constructor
  · rintro (⟨e, he, hie⟩ | hpb)
    · exact ⟨e, he, hie⟩
    · exact absurd hpb hempty
  · rintro ⟨e, he, hie⟩
    exact Or.inl ⟨e, he, hie⟩

/-- Membership in the payload-id list is payload-bearing. -/
theorem mem_payloadIds {g : PGraph} {i : String} :
    i ∈ payloadIds g ↔ PB g i := by
  unfold payloadIds PB
  simp only [List.mem_map, List.mem_filter]
  constructor
  · rintro ⟨⟨a, pay⟩, ⟨hp, hs⟩, rfl⟩
    cases pay with
    | none => simp at hs
    | some n => exact ⟨n, hp⟩
  · rintro ⟨n, hn⟩
    exact ⟨(i, some n), ⟨hn, by simp⟩, rfl⟩

/-- Payload ids inherit distinctness from node ids. -/
theorem payloadIds_nodup {g : PGraph} (h : (nodeIds g).Nodup) :
    (payloadIds g).Nodup :=
  h.sublist (List.Sublist.map Prod.fst (List.filter_sublist _))

/-- Claim C2 (amended): for a valid document with pairwise distinct element
ids, the number of payload-bearing graph nodes after `build_from_xml`
equals the count of elements that are locally valid (status maps, priority
and for stories points numeric) under locally valid ancestors. -/
theorem c2_amended_node_count (d : PlanDoc) (h : (docElemIds d).Nodup) :
    payloadCount ((build_from_xml initState (.valid d)).1.graph) =
      specNodeCount d := by
  show payloadCount (build_graph (parse_plan d)) = specNodeCount d
  have hspec : (planElemIds (parse_plan d)).Nodup := by
    rw [planElemIds_parse]
    exact h.sublist (specElemIds_sublist d)
  have hnod : (payloadIds (build_graph (parse_plan d))).Nodup :=
    payloadIds_nodup (build_graph_nodeIds_nodup _)
  have hperm : List.Perm (payloadIds (build_graph (parse_plan d)))
      (planElemIds (parse_plan d)) := by
    refine List.perm_of_nodup_nodup_toFinset_eq hnod hspec ?_
    ext i
    simp only [List.mem_toFinset]
    rw [mem_payloadIds, PB_build_graph]
  calc payloadCount (build_graph (parse_plan d))
      = (planElemIds (parse_plan d)).length := hperm.length_eq
    _ = (specElemIds d).length := by rw [planElemIds_parse]
    _ = specNodeCount d := (specNodeCount_eq_length d).symm

/-- Witness for C2 (amended) at `doc_ready`: distinct ids, and the payload
node count equals the spec count (both are 4). -/
theorem c2_amended_node_count_witness :
    (docElemIds doc_ready).Nodup ∧
    payloadCount ((build_from_xml initState (.valid doc_ready)).1.graph) =
      specNodeCount doc_ready :=
  ⟨by decide, c2_amended_node_count doc_ready (by decide)⟩

/-- The parsed stories of a story-element list carry exactly the ids of its
locally valid elements, in order. -/
theorem filterMap_parse_story_ids (ss : List StoryElem) :
    (ss.filterMap parse_story).map StoryNode.id =
      (ss.filter storyLocallyValid).map StoryElem.id := by
  induction ss with
  | nil => rfl
  | cons st ss ih =>
    cases hp : parse_story st with
    | none =>
      have hq : storyLocallyValid st = false := by
        have := parse_story_isSome st; rw [hp] at this; simpa using this.symm
      simp [List.filterMap_cons, hp, List.filter_cons, hq, ih]
    | some n =>
      have hq : storyLocallyValid st = true := by
        have := parse_story_isSome st; rw [hp] at this; simpa using this.symm
      simp [List.filterMap_cons, hp, List.filter_cons, hq, ih,
        (parse_story_id_tasks hp).1]

/-- Claim C3 (amended): an element is dropped, with everything nested under
it, exactly when its status fails to map to the enumeration or its priority
(or a story's points) is non-numeric; an empty id does not cause dropping.
Siblings and ancestors are parsed unaffected: a parsed story's tasks are
its locally valid task elements in order, a parsed epic's stories likewise.
In the scenario of `doc_bogus`, the task `TB` with `status="bogus"` is
dropped, its parent story `S1` is still built with the remaining tasks
`T1` and `T3`, and no node `TB` appears in the graph. -/
theorem c3_amended_drop_policy :
    (∀ t : TaskElem, parse_task t = none ↔
      statusOfString t.status = none ∨ str_to_int t.priority = none) ∧
    (∀ s : StoryElem, parse_story s = none ↔
      statusOfString s.status = none ∨ str_to_int s.priority = none ∨
        str_to_int s.points = none) ∧
    (∀ e : EpicElem, parse_epic e = none ↔
      statusOfString e.status = none ∨ str_to_int e.priority = none) ∧
    (∀ (s : StoryElem) (n : StoryNode), parse_story s = some n →
      n.tasks.map TaskNode.id =
        (s.tasks.filter taskLocallyValid).map TaskElem.id) ∧
    (∀ (e : EpicElem) (n : EpicNode), parse_epic e = some n →
      n.stories.map StoryNode.id =
        (e.stories.filter storyLocallyValid).map StoryElem.id) ∧
    nodeIds g_bogus = ["E1", "S1", "T1", "T3"] ∧
    "TB" ∉ nodeIds g_bogus ∧
    (∃ m : StoryNode, payloadOf g_bogus "S1" = some (some (.story m)) ∧
      m.tasks.map TaskNode.id = ["T1", "T3"]) := by
  refine ⟨?_, ?_, ?_, ?_, ?_, rfl, ?_, ⟨_, rfl, rfl⟩⟩
  · intro t
    unfold parse_task
    cases statusOfString t.status <;> cases str_to_int t.priority <;> simp
  · intro s
    unfold parse_story
    cases statusOfString s.status <;> cases str_to_int s.priority <;>
      cases str_to_int s.points <;> simp
  · intro e
    unfold parse_epic
    cases statusOfString e.status <;> cases str_to_int e.priority <;> simp
  · intro s n h
    rw [(parse_story_id_tasks h).2]
    exact filterMap_parse_task_ids s.tasks
  · intro e n h
    rw [(parse_epic_id_stories h).2]
    exact filterMap_parse_story_ids e.stories
  · intro h
    rw [show nodeIds g_bogus = ["E1", "S1", "T1", "T3"] from rfl] at h
    simp at h

theorem reaches_trans {g : PGraph} {a b c : String}
    (h1 : Reaches g a b) (h2 : Reaches g b c) : Reaches g a c := by
  induction h2 with
  | refl => exact h1
  | tail _ hc ih => exact Reaches.tail ih hc

/-- A node id always resolves to an entry. -/
theorem payloadOf_isSome_of_mem {g : PGraph} {i : String}
    (h : i ∈ nodeIds g) : ∃ pay, payloadOf g i = some pay := by
  obtain ⟨p, hp, rfl⟩ := List.mem_map.mp h
  unfold payloadOf
  cases hf : g.nodes.find? (fun q => q.1 = p.1) with
  | none =>
    have := List.find?_eq_none.mp hf p hp
    simp at this
  | some q => exact ⟨q.2, rfl⟩

/-- A resolving id is a node id. -/
theorem mem_of_payloadOf_some {g : PGraph} {i : String} {pay : Option NodeType}
    (h : payloadOf g i = some pay) : i ∈ nodeIds g := by
  unfold payloadOf at h
  cases hf : g.nodes.find? (fun q => q.1 = i) with
  | none => rw [hf] at h; simp at h
  | some q =>
    have hq := List.find?_some hf
    simp only [decide_eq_true_eq] at hq
    exact hq ▸ List.mem_map.mpr ⟨q, List.mem_of_find?_eq_some hf, rfl⟩

/-- When every node carries a payload, every node id resolves to one. -/
theorem payload_full {g : PGraph}
    (hpay : ∀ p ∈ g.nodes, (Prod.snd p).isSome = true)
    {i : String} (h : i ∈ nodeIds g) :
    ∃ n : NodeType, payloadOf g i = some (some n) := by
  unfold payloadOf
  cases hf : g.nodes.find? (fun q => q.1 = i) with
  | none =>
    obtain ⟨p, hp, rfl⟩ := List.mem_map.mp h
    have := List.find?_eq_none.mp hf p hp
    simp at this
  | some q =>
    have hs := hpay q (List.mem_of_find?_eq_some hf)
    cases hq2 : q.2 with
    | none => rw [hq2] at hs; simp at hs
    | some n => exact ⟨n, by simp [hq2]⟩

/-- With well-formed edges, children are node ids. -/
theorem childrenOf_subset_nodeIds {g : PGraph}
    (hwf : ∀ e ∈ g.edges, e.1 ∈ nodeIds g ∧ e.2.1 ∈ nodeIds g)
    {i c : String} (h : c ∈ childrenOf g i) : c ∈ nodeIds g := by
  unfold childrenOf at h
  obtain ⟨e, he, rfl⟩ := List.mem_map.mp h
  exact (hwf e (List.mem_filter.mp he).1).1

theorem addChildrenF_nil (g : PGraph) (b : Bool) (fuel : Nat)
    (acc : List String × List String) (lvl : Nat) :
    addChildrenF g b fuel [] acc lvl = .ok acc := rfl

theorem addChildrenF_cons (g : PGraph) (b : Bool) (fuel : Nat) (c : String)
    (cs : List String) (acc : List String × List String) (lvl : Nat) :
    addChildrenF g b fuel (c :: cs) acc lvl =
      match addTask g b fuel c acc.2 lvl with
      | .error e => .error e
      | .ok (ls, vis) => addChildrenF g b fuel cs (acc.1 ++ ls, vis) lvl := by
  unfold addChildrenF
  rw [List.foldlM_cons]
  cases addTask g b fuel c acc.2 lvl with
  | error e => rfl
  | ok r => obtain ⟨ls, vis⟩ := r; rfl

theorem addTask_succ (g : PGraph) (b : Bool) (fuel : Nat) (tid : String)
    (vis : List String) (lvl : Nat) :
    addTask g b (fuel + 1) tid vis lvl =
      if tid ∈ vis then .ok ([], vis)
      else
        match payloadOf g tid with
        | some (some n) =>
          match addChildrenF g b fuel (childrenOf g tid) ([], tid :: vis)
              (lvl + 1) with
          | .error e => .error e
          | .ok (ls, vis2) => .ok (renderLine lvl n b :: ls, vis2)
        | _ => .error () := rfl

theorem addChildrenF_spec {g : PGraph} {b : Bool} {fuel : Nat}
    (hP : ∀ (tid : String) (vis : List String) (lvl : Nat)
      (res : List String × List String),
      addTask g b fuel tid vis lvl = .ok res → AddTaskSpec g b tid vis res) :
    ∀ (cs : List String) (acc : List String × List String) (lvl : Nat)
      (res : List String × List String),
      addChildrenF g b fuel cs acc lvl = .ok res →
      AddChildrenSpec g b cs acc res := by
  intro cs
  induction cs with
  | nil =>
    intro acc lvl res h
    rw [addChildrenF_nil] at h
    obtain rfl : acc = res := by simpa using h
    exact ⟨[], [], by simp, by simp, by simp, by simp, by simp, by simp,
      by simp, by simp, by simp⟩
  | cons c cs ih =>
    intro acc lvl res h
    rw [addChildrenF_cons] at h
    cases hc : addTask g b fuel c acc.2 lvl with
    | error e => rw [hc] at h; exact Except.noConfusion h
    | ok r1 =>
      rw [hc] at h
      obtain ⟨ls1, v1⟩ := r1
      obtain ⟨new1, items1, e1, nd1, nv1, ni1, re1, tm1, cl1, if1, il1, ip1⟩ :=
        hP c acc.2 lvl (ls1, v1) hc
      obtain ⟨new2, items2, e2, nd2, nv2, ni2, re2, tm2, cl2, if2, il2, ip2⟩ :=
        ih (acc.1 ++ ls1, v1) lvl res h
      dsimp only at e1 nv1 tm1 cl1 il1 e2 nv2 tm2 cl2 il2
      refine ⟨new2 ++ new1, items1 ++ items2, ?_, ?_, ?_, ?_, ?_, ?_, ?_, ?_, ?_, ?_⟩
      · rw [e2, e1, List.append_assoc]
      · rw [List.nodup_append]
        refine ⟨nd2, nd1, ?_⟩
        intro j hj2 hj1
        exact nv2 j hj2 (e1 ▸ List.mem_append.mpr (Or.inl hj1))
      · intro j hj
        rcases List.mem_append.mp hj with hj | hj
        · intro hjacc
          exact nv2 j hj (e1 ▸ List.mem_append.mpr (Or.inr hjacc))
        · exact nv1 j hj
      · intro j hj
        rcases List.mem_append.mp hj with hj | hj
        · exact ni2 j hj
        · exact ni1 j hj
      · intro j hj
        rcases List.mem_append.mp hj with hj | hj
        · obtain ⟨c', hc', hr⟩ := re2 j hj
          exact ⟨c', List.mem_cons_of_mem _ hc', hr⟩
        · exact ⟨c, List.mem_cons_self _ _, re1 j hj⟩
      · intro c' hc'
        rcases List.mem_cons.mp hc' with rfl | hc'
        · rw [e2]
          exact List.mem_append.mpr (Or.inr tm1)
        · exact tm2 c' hc'
      · intro j hj
        rcases List.mem_append.mp hj with hj | hj
        · exact cl2 j hj
        · intro c' hcc
          rw [e2]
          exact List.mem_append.mpr (Or.inr (cl1 j hj c' hcc))
      · rw [List.map_append, if1, if2, List.reverse_append]
      · rw [il2, il1, List.map_append, List.append_assoc]
      · intro x hx
        rcases List.mem_append.mp hx with hx | hx
        · exact ip1 x hx
        · exact ip2 x hx

theorem addTask_spec {g : PGraph} {b : Bool} :
    ∀ (fuel : Nat) (tid : String) (vis : List String) (lvl : Nat)
      (res : List String × List String),
      addTask g b fuel tid vis lvl = .ok res → AddTaskSpec g b tid vis res := by
  intro fuel
  induction fuel with
  | zero =>
    intro tid vis lvl res h
    exact Except.noConfusion h
  | succ fuel ih =>
    intro tid vis lvl res h
    rw [addTask_succ] at h
    by_cases hv : tid ∈ vis
    · rw [if_pos hv] at h
      obtain rfl : (([], vis) : List String × List String) = res := by
        simpa using h
      exact ⟨[], [], by simp, by simp, by simp, by simp, by simp,
        by simpa using hv, by simp, by simp, by simp, by simp⟩
    · rw [if_neg hv] at h
      cases hp : payloadOf g tid with
      | none => rw [hp] at h; exact Except.noConfusion h
      | some pay =>
        cases pay with
        | none => rw [hp] at h; exact Except.noConfusion h
        | some n =>
          rw [hp] at h
          cases hch : addChildrenF g b fuel (childrenOf g tid) ([], tid :: vis)
              (lvl + 1) with
          | error e => rw [hch] at h; exact Except.noConfusion h
          | ok r2 =>
            rw [hch] at h
            obtain ⟨ls2, v2⟩ := r2
            obtain rfl : (renderLine lvl n b :: ls2, v2) = res := by simpa using h
            obtain ⟨new2, items2, e2, nd2, nv2, ni2, re2, tm2, cl2, if2, il2, ip2⟩ :=
              addChildrenF_spec ih _ _ _ _ hch
            dsimp only at e2 nv2 tm2 cl2 il2
            refine ⟨new2 ++ [tid], (tid, lvl, n) :: items2,
              ?_, ?_, ?_, ?_, ?_, ?_, ?_, ?_, ?_, ?_⟩
            · show v2 = (new2 ++ [tid]) ++ vis
              rw [e2, List.append_assoc]
              rfl
            · rw [List.nodup_append]
              refine ⟨nd2, by simp, ?_⟩
              intro j hj2 hj1
              rw [List.mem_singleton] at hj1
              subst hj1
              exact nv2 j hj2 (List.mem_cons_self _ _)
            · intro j hj
              rcases List.mem_append.mp hj with hj | hj
              · exact fun hjv => nv2 j hj (List.mem_cons_of_mem _ hjv)
              · rw [List.mem_singleton] at hj; subst hj; exact hv
            · intro j hj
              rcases List.mem_append.mp hj with hj | hj
              · exact ni2 j hj
              · rw [List.mem_singleton] at hj; subst hj
                exact mem_of_payloadOf_some hp
            · intro j hj
              rcases List.mem_append.mp hj with hj | hj
              · obtain ⟨c, hc, hr⟩ := re2 j hj
                exact reaches_trans (Reaches.tail (Reaches.refl tid) hc) hr
              · rw [List.mem_singleton] at hj; subst hj; exact Reaches.refl _
            · show tid ∈ v2
              rw [e2]
              exact List.mem_append.mpr (Or.inr (List.mem_cons_self _ _))
            · intro j hj
              rcases List.mem_append.mp hj with hj | hj
              · exact cl2 j hj
              · rw [List.mem_singleton] at hj; subst hj
                intro c hc
                exact tm2 c hc
            · show ((tid, lvl, n) :: items2).map Prod.fst = (new2 ++ [tid]).reverse
              rw [List.map_cons, if2, List.reverse_append]
              rfl
            · show renderLine lvl n b :: ls2 =
                ((tid, lvl, n) :: items2).map (fun x => renderLine x.2.1 x.2.2 b)
              rw [il2]
              simp
            · intro x hx
              rcases List.mem_cons.mp hx with rfl | hx
              · exact hp
              · exact ip2 x hx

theorem filter_notin_mono {l vis vis' : List String}
    (h : ∀ j ∈ vis, j ∈ vis') :
    (l.filter (fun j => j ∉ vis')).length ≤
      (l.filter (fun j => j ∉ vis)).length := by
  induction l with
  | nil => exact Nat.le_refl _
  | cons a l ih =>
    simp only [List.filter_cons]
    by_cases ha' : a ∈ vis'
    · have hd' : (decide (a ∉ vis')) = false := by simpa using ha'
      rw [hd']
      by_cases hav : a ∈ vis
      · have hd : (decide (a ∉ vis)) = false := by simpa using hav
        rw [hd]; exact ih
      · have hd : (decide (a ∉ vis)) = true := by simpa using hav
        rw [hd]
        simp only [List.length_cons]
        exact Nat.le_succ_of_le ih
    · have hav : a ∉ vis := fun hm => ha' (h a hm)
      have hd' : (decide (a ∉ vis')) = true := by simpa using ha'
      have hd : (decide (a ∉ vis)) = true := by simpa using hav
      rw [hd', hd]
      simp only [List.length_cons]
      exact Nat.succ_le_succ ih

theorem filter_notin_strict {l vis : List String} {tid : String}
    (hmem : tid ∈ l) (hnv : tid ∉ vis) :
    (l.filter (fun j => j ∉ tid :: vis)).length <
      (l.filter (fun j => j ∉ vis)).length := by
  induction l with
  | nil => simp at hmem
  | cons a l ih =>
    simp only [List.filter_cons]
    rcases List.mem_cons.mp hmem with rfl | hmem
    · have hd1 : (decide (tid ∉ tid :: vis)) = false := by simp
      have hd2 : (decide (tid ∉ vis)) = true := by simpa using hnv
      rw [hd1, hd2]
      simp only [List.length_cons]
      exact Nat.lt_succ_of_le
        (filter_notin_mono (fun j hj => List.mem_cons_of_mem _ hj))
    · by_cases ha1 : a ∈ tid :: vis
      · have hd1 : (decide (a ∉ tid :: vis)) = false := by
          simp only [decide_eq_false_iff_not, not_not]
          exact ha1
        rw [hd1]
        by_cases ha2 : a ∈ vis
        · have hd2 : (decide (a ∉ vis)) = false := by simpa using ha2
          rw [hd2]; exact ih hmem
        · have hd2 : (decide (a ∉ vis)) = true := by simpa using ha2
          rw [hd2]
          simp only [List.length_cons]
          exact Nat.lt_succ_of_le (Nat.le_of_lt (ih hmem))
      · have ha2 : a ∉ vis := fun hm => ha1 (List.mem_cons_of_mem _ hm)
        have hd1 : (decide (a ∉ tid :: vis)) = true := by simpa using ha1
        have hd2 : (decide (a ∉ vis)) = true := by simpa using ha2
        rw [hd1, hd2]
        simp only [List.length_cons]
        exact Nat.succ_lt_succ (ih hmem)

theorem addChildrenF_ok {g : PGraph} {b : Bool} {fuel : Nat}
    (hok : ∀ (tid : String) (vis : List String) (lvl : Nat),
      tid ∈ nodeIds g → unvisitedCount g vis + 1 ≤ fuel →
      ∃ res, addTask g b fuel tid vis lvl = .ok res)
    (hspec : ∀ (tid : String) (vis : List String) (lvl : Nat)
      (res : List String × List String),
      addTask g b fuel tid vis lvl = .ok res → AddTaskSpec g b tid vis res) :
    ∀ (cs : List String) (acc : List String × List String) (lvl : Nat),
      (∀ c ∈ cs, c ∈ nodeIds g) →
      unvisitedCount g acc.2 + 1 ≤ fuel →
      ∃ res, addChildrenF g b fuel cs acc lvl = .ok res := by
  intro cs
  induction cs with
  | nil =>
    intro acc lvl _ _
    exact ⟨acc, addChildrenF_nil g b fuel acc lvl⟩
  | cons c cs ih =>
    intro acc lvl hcs hcount
    obtain ⟨r1, hr1⟩ :=
      hok c acc.2 lvl (hcs c (List.mem_cons_self _ _)) hcount
    obtain ⟨ls1, v1⟩ := r1
    obtain ⟨new1, _, e1, _⟩ := hspec c acc.2 lvl (ls1, v1) hr1
    dsimp only at e1
    have hsub : ∀ j ∈ acc.2, j ∈ v1 := by
      intro j hj
      rw [e1]
      exact List.mem_append.mpr (Or.inr hj)
    have hcount1 : unvisitedCount g v1 + 1 ≤ fuel :=
      Nat.le_trans (Nat.add_le_add_right (filter_notin_mono hsub) 1) hcount
    obtain ⟨res, hres⟩ := ih (acc.1 ++ ls1, v1) lvl
      (fun c' hc' => hcs c' (List.mem_cons_of_mem _ hc')) hcount1
    refine ⟨res, ?_⟩
    rw [addChildrenF_cons, hr1]
    exact hres

theorem addTask_ok {g : PGraph} {b : Bool}
    (hwf : ∀ e ∈ g.edges, e.1 ∈ nodeIds g ∧ e.2.1 ∈ nodeIds g)
    (hpay : ∀ p ∈ g.nodes, (Prod.snd p).isSome = true) :
    ∀ (fuel : Nat) (tid : String) (vis : List String) (lvl : Nat),
      tid ∈ nodeIds g → unvisitedCount g vis + 1 ≤ fuel →
      ∃ res, addTask g b fuel tid vis lvl = .ok res := by
  intro fuel
  induction fuel with
  | zero =>
    intro tid vis lvl _ hcount
    exact absurd hcount (by omega)
  | succ fuel ih =>
    intro tid vis lvl htid hcount
    rw [addTask_succ]
    by_cases hv : tid ∈ vis
    · rw [if_pos hv]; exact ⟨([], vis), rfl⟩
    · rw [if_neg hv]
      obtain ⟨n, hp⟩ := payload_full hpay htid
      rw [hp]
      have hstrict := filter_notin_strict htid hv
      have hcount' : unvisitedCount g (tid :: vis) + 1 ≤ fuel := by
        unfold unvisitedCount at hcount ⊢
        omega
      obtain ⟨r, hr⟩ := addChildrenF_ok ih (addTask_spec fuel)
        (childrenOf g tid) ([], tid :: vis) (lvl + 1)
        (fun c hc => childrenOf_subset_nodeIds hwf hc)
        (by dsimp only; exact hcount')
      obtain ⟨ls, v2⟩ := r
      rw [hr]
      exact ⟨(renderLine lvl n b :: ls, v2), rfl⟩

theorem rootsLoop_spec {g : PGraph} {b : Bool} {fuel : Nat} :
    ∀ (rs : List String) (vis : List String) (res : List String × List String),
      rootsLoop g b fuel rs vis = .ok res → RootsSpec g b rs vis res := by
  intro rs
  induction rs with
  | nil =>
    intro vis res h
    obtain rfl : (([], vis) : List String × List String) = res := by
      simpa [rootsLoop] using h
    exact ⟨[], [], by simp, by simp, by simp, by simp, by simp, by simp,
      by simp, by simp, by simp⟩
  | cons r rs ih =>
    intro vis res h
    rw [rootsLoop] at h
    split at h
    · exact Except.noConfusion h
    · rename_i ls1 v1 hr1
      split at h
      · exact Except.noConfusion h
      · rename_i ls2 v2 hr2
        obtain rfl : ((ls1 ++ ls2, v2) : List String × List String) = res := by
          simpa using h
        obtain ⟨new1, items1, e1, nd1, nv1, ni1, re1, tm1, cl1, if1, il1, ip1⟩ :=
          addTask_spec fuel r vis 0 (ls1, v1) hr1
        obtain ⟨new2, items2, e2, nd2, nv2, ni2, re2, tm2, cl2, if2, il2, ip2⟩ :=
          ih v1 (ls2, v2) hr2
        dsimp only at e1 nv1 tm1 cl1 il1 e2 nv2 tm2 cl2 il2
        refine ⟨new2 ++ new1, items1 ++ items2,
          ?_, ?_, ?_, ?_, ?_, ?_, ?_, ?_, ?_, ?_⟩
        · show v2 = (new2 ++ new1) ++ vis
          rw [e2, e1, List.append_assoc]
        · rw [List.nodup_append]
          refine ⟨nd2, nd1, ?_⟩
          intro j hj2 hj1
          exact nv2 j hj2 (e1 ▸ List.mem_append.mpr (Or.inl hj1))
        · intro j hj
          rcases List.mem_append.mp hj with hj | hj
          · intro hjv
            exact nv2 j hj (e1 ▸ List.mem_append.mpr (Or.inr hjv))
          · exact nv1 j hj
        · intro j hj
          rcases List.mem_append.mp hj with hj | hj
          · exact ni2 j hj
          · exact ni1 j hj
        · intro j hj
          rcases List.mem_append.mp hj with hj | hj
          · obtain ⟨r', hr', hre⟩ := re2 j hj
            exact ⟨r', List.mem_cons_of_mem _ hr', hre⟩
          · exact ⟨r, List.mem_cons_self _ _, re1 j hj⟩
        · intro r' hr'
          rcases List.mem_cons.mp hr' with rfl | hr'
          · show r' ∈ v2
            rw [e2]
            exact List.mem_append.mpr (Or.inr tm1)
          · exact tm2 r' hr'
        · intro j hj
          rcases List.mem_append.mp hj with hj | hj
          · exact cl2 j hj
          · intro c hc
            show c ∈ v2
            rw [e2]
            exact List.mem_append.mpr (Or.inr (cl1 j hj c hc))
        · rw [List.map_append, if1, if2, List.reverse_append]
        · rw [il1, il2, List.map_append]
        · intro x hx
          rcases List.mem_append.mp hx with hx | hx
          · exact ip1 x hx
          · exact ip2 x hx

theorem unvisitedCount_le (g : PGraph) (vis : List String) :
    unvisitedCount g vis ≤ g.nodes.length := by
  unfold unvisitedCount
  have h1 := List.length_filter_le (fun j => decide (j ∉ vis)) (nodeIds g)
  have h2 : (nodeIds g).length = g.nodes.length := by simp [nodeIds]
  omega

theorem rootsLoop_ok {g : PGraph} {b : Bool}
    (hwf : ∀ e ∈ g.edges, e.1 ∈ nodeIds g ∧ e.2.1 ∈ nodeIds g)
    (hpay : ∀ p ∈ g.nodes, (Prod.snd p).isSome = true) :
    ∀ (rs : List String) (vis : List String), (∀ r ∈ rs, r ∈ nodeIds g) →
      ∃ res, rootsLoop g b (g.nodes.length + 1) rs vis = .ok res := by
  intro rs
  induction rs with
  | nil => intro vis _; exact ⟨([], vis), rfl⟩
  | cons r rs ih =>
    intro vis hrs
    obtain ⟨r1, hr1⟩ := addTask_ok (b := b) hwf hpay (g.nodes.length + 1) r vis 0
      (hrs r (List.mem_cons_self _ _))
      (by have := unvisitedCount_le g vis; omega)
    obtain ⟨ls1, v1⟩ := r1
    obtain ⟨r2, hr2⟩ := ih v1 (fun r' hr' => hrs r' (List.mem_cons_of_mem _ hr'))
    obtain ⟨ls2, v2⟩ := r2
    exact ⟨(ls1 ++ ls2, v2), by simp only [rootsLoop, hr1, hr2]⟩

/-- Claim C8 (amended): on a built graph all of whose nodes carry a payload,
`to_markdown` emits exactly one line per node reachable from a root via
incoming ComponentOf edges — the emitted ids are duplicate-free and are
precisely the reachable ids — each line rendered from that node's own
payload as indent, `- `, id, `: `, description, and the status suffix when
requested.  For the hierarchy E1 -> S1 -> T1 with status display on, the
output is the E1 line, the S1 line indented one level and the T1 line
indented two levels, each carrying its status in parentheses. -/
theorem c8_amended_outline (g : PGraph) (req : ToMarkdownRequest)
    (hwf : ∀ e ∈ g.edges, e.1 ∈ nodeIds g ∧ e.2.1 ∈ nodeIds g)
    (hpay : ∀ p ∈ g.nodes, (Prod.snd p).isSome = true) :
    (∃ items : List (String × Nat × NodeType),
      to_markdown g req = .ok { content := (String.intercalate "\n"
        (items.map (fun x => renderLine x.2.1 x.2.2 req.include_status))) } ∧
      (items.map Prod.fst).Nodup ∧
      (∀ i, i ∈ items.map Prod.fst ↔ ReachableFromRoot g i) ∧
      (∀ x ∈ items, payloadOf g x.1 = some (some x.2.2))) ∧
    to_markdown g_outline { include_status := true } =
      .ok { content :=
        "- E1: dE1 (in_progress)\n  - S1: dS1 (complete)\n    - T1: dT1 (complete)" } := by
  refine ⟨?_, rfl⟩
  have hroots : ∀ r ∈ (nodeIds g).filter (fun i => isRoot g i), r ∈ nodeIds g :=
    fun r hr => (List.mem_filter.mp hr).1
  obtain ⟨res, hres⟩ := rootsLoop_ok (b := req.include_status) hwf hpay
    ((nodeIds g).filter (fun i => isRoot g i)) [] hroots
  obtain ⟨ls, V⟩ := res
  obtain ⟨new, items, e1, nd, _, _, re, rootsIn, cl, idsEq, linesEq, payOk⟩ :=
    rootsLoop_spec _ _ _ hres
  dsimp only at e1 re rootsIn cl linesEq
  rw [List.append_nil] at e1
  subst e1
  refine ⟨items, ?_, ?_, ?_, payOk⟩
  · simp only [to_markdown, hres]
    rw [linesEq]
  · rw [idsEq]
    exact List.nodup_reverse.mpr nd
  · intro i
    rw [idsEq, List.mem_reverse]
    constructor
    · intro hi
      obtain ⟨r, hr, hre⟩ := re i hi
      obtain ⟨hrn, hroot⟩ := List.mem_filter.mp hr
      exact ⟨r, hrn, by simpa using hroot, hre⟩
    · rintro ⟨r, hrn, hroot, hre⟩
      have hrroots : r ∈ (nodeIds g).filter (fun i => isRoot g i) :=
        List.mem_filter.mpr ⟨hrn, by simpa using hroot⟩
      have hrV := rootsIn r hrroots
      induction hre with
      | refl => exact hrV
      | tail _ hc ihh => exact cl _ ihh _ hc

/-- Witness for C8 (amended): the outline theorem applied to the concrete
built graph `g_ready` with status display on. -/
theorem c8_amended_outline_witness :
    (∃ items : List (String × Nat × NodeType),
      to_markdown g_ready { include_status := true } =
        .ok { content := (String.intercalate "\n"
          (items.map (fun x => renderLine x.2.1 x.2.2 true))) } ∧
      (items.map Prod.fst).Nodup ∧
      (∀ i, i ∈ items.map Prod.fst ↔ ReachableFromRoot g_ready i) ∧
      (∀ x ∈ items, payloadOf g_ready x.1 = some (some x.2.2))) ∧
    to_markdown g_outline { include_status := true } =
      .ok { content :=
        "- E1: dE1 (in_progress)\n  - S1: dS1 (complete)\n    - T1: dT1 (complete)" } :=
  c8_amended_outline g_ready { include_status := true } (by decide) (by decide)

end Mtf
